import Mathlib

/-!
# Verification of the locally-ordered clustering BVH builder

Shallow embedding of `src/include/bvh/locally_ordered_clustering_builder.hpp`
and `src/include/bvh/bvh.hpp` (repository `dp-bvh`).

Modelling conventions:
* `size_t` indices become `ℕ`; the scalar type becomes `ℤ` (every proof below
  only uses the linearly ordered commutative ring structure, so it is
  independent of the scalar choice; the claims under study are about index
  arithmetic, placement and algebraic identities of the union operator, not
  about floating-point rounding).
* Node arrays become total functions `ℕ → BvhNode V`; `make_unique<T[]>`
  value-initializes, so fresh buffers are the all-zero node everywhere.
* The bounding-volume arithmetic (`bounding_box.hpp`) is not part of `src/`.
  Modelled from the spec: a bounding volume is an abstract type with a fixed
  operation set `extend` (grow to cover) and `half_area` (half surface area,
  the merge-cost metric); for axis-aligned boxes the spec's "2 axis-aligned
  extents per dimension" and "half the surface area" are realized concretely
  over `ℤ`.
-/

/-- Modelled from the spec: an axis-aligned bounding box, "6 scalars = 2
axis-aligned extents per dimension". -/
structure BBox where
  lx : ℤ
  ly : ℤ
  lz : ℤ
  hx : ℤ
  hy : ℤ
  hz : ℤ
deriving DecidableEq, Repr

/-- Modelled from the spec: `extend` grows a box to cover another box
(componentwise min of lower extents, max of upper extents). -/
def BBox.extend (a b : BBox) : BBox :=
  ⟨min a.lx b.lx, min a.ly b.ly, min a.lz b.lz,
   max a.hx b.hx, max a.hy b.hy, max a.hz b.hz⟩

/-- Modelled from the spec: `half_area` is half the surface area of the box. -/
def BBox.half_area (a : BBox) : ℤ :=
  let dx := a.hx - a.lx
  let dy := a.hy - a.ly
  let dz := a.hz - a.lz
  dx * dy + dy * dz + dz * dx

theorem BBox.extend_comm (a b : BBox) : a.extend b = b.extend a := by
  simp [BBox.extend, min_comm, max_comm]

/-- Modelled from the spec: the fixed operation set of a bounding-volume
value type ("union, half-surface-area"), abstracting over boxes/cylinders
exactly as the C++ builder is templated over the node type. -/
structure VolOps (V : Type) where
  extend : V → V → V
  half_area : V → ℤ

/-- The concrete box instance of the operation set. -/
def boxOps : VolOps BBox :=
  ⟨BBox.extend, BBox.half_area⟩

/-- One node record of `Bvh` (`bvh.hpp`): bounding volume, leaf flag,
primitive count, `first_child_or_primitive`, and the hybrid-mode `origin`
back-link (present on the box node, zero-initialized). -/
structure BvhNode (V : Type) where
  volume : V
  is_leaf : Bool
  primitive_count : ℕ
  first_child_or_primitive : ℕ
  origin : ℕ
deriving DecidableEq, Repr

/-- The value-initialized node (`std::make_unique<Node[]>` zero-fills). -/
def zeroNode (V : Type) (z : V) : BvhNode V :=
  ⟨z, false, 0, 0, 0⟩

/-- The all-zero box. -/
def zeroBox : BBox := ⟨0, 0, 0, 0, 0, 0⟩

/-- Merge cost of two nodes: `input[i].bounding_box_proxy().to_bounding_box()
.extend(input[j].bounding_box_proxy()).half_area()`. -/
def mergeCost {V : Type} (ops : VolOps V) (input : ℕ → BvhNode V) (i j : ℕ) : ℤ :=
  ops.half_area (ops.extend (input i).volume (input j).volume)

/-!
## The scan for the best (lowest-cost) neighbor

The C++ nearest-neighbor search folds over candidates in a fixed order
(backward then forward), keeping the current best under a strict `<` update,
starting from `best_distance = max`, `best_neighbor = -1` (modelled as
`none`).
-/

/-- One update step of the best-candidate fold: replace the accumulator
exactly when the new distance is strictly smaller. -/
def scanStep (acc : Option (ℕ × ℤ)) (y : ℕ × ℤ) : Option (ℕ × ℤ) :=
  match acc with
  | none => some y
  | some b => if y.2 < b.2 then some y else some b

/-- The best-candidate fold over a list of (index, distance) candidates. -/
def scanBest (l : List (ℕ × ℤ)) : Option (ℕ × ℤ) :=
  l.foldl scanStep none

theorem scanStep_isSome (acc : Option (ℕ × ℤ)) (y : ℕ × ℤ) :
    (scanStep acc y).isSome := by
  cases acc with
  | none => rfl
  | some b =>
    simp only [scanStep]
    split <;> rfl

theorem foldl_scanStep_some (l : List (ℕ × ℤ)) (b : ℕ × ℤ) :
    ∃ r, l.foldl scanStep (some b) = some r ∧
      r.2 ≤ b.2 ∧ (r = b ∨ (r ∈ l ∧ r.2 < b.2)) ∧ ∀ y ∈ l, r.2 ≤ y.2 := by
  induction l generalizing b with
  | nil => exact ⟨b, rfl, le_refl _, Or.inl rfl, by simp⟩
  | cons x t ih =>
    simp only [List.foldl_cons]
    by_cases hx : x.2 < b.2
    · simp only [scanStep, hx, if_pos]
      obtain ⟨r, hr, hle, hcase, hmin⟩ := ih x
      refine ⟨r, hr, le_of_lt (lt_of_le_of_lt hle hx), ?_, ?_⟩
      · rcases hcase with h | ⟨hm, hlt⟩
        · exact Or.inr ⟨by simp [h], lt_of_le_of_lt hle hx⟩
        · exact Or.inr ⟨List.mem_cons_of_mem _ hm, lt_trans hlt hx⟩
      · intro y hy
        rcases List.mem_cons.mp hy with h | h
        · exact le_of_le_of_eq hle (by rw [h])
        · exact hmin y h
    · simp only [scanStep, hx, if_neg, not_false_iff]
      obtain ⟨r, hr, hle, hcase, hmin⟩ := ih b
      refine ⟨r, hr, hle, ?_, ?_⟩
      · rcases hcase with h | ⟨hm, hlt⟩
        · exact Or.inl h
        · exact Or.inr ⟨List.mem_cons_of_mem _ hm, hlt⟩
      · intro y hy
        rcases List.mem_cons.mp hy with h | h
        · rw [h]; exact le_trans hle (le_of_not_lt hx)
        · exact hmin y h

theorem scanBest_nil : scanBest [] = none := rfl

theorem scanBest_cons (x : ℕ × ℤ) (t : List (ℕ × ℤ)) :
    scanBest (x :: t) = t.foldl scanStep (some x) := rfl

theorem scanBest_eq_none_iff (l : List (ℕ × ℤ)) :
    scanBest l = none ↔ l = [] := by
  constructor
  · intro h
    cases l with
    | nil => rfl
    | cons x t =>
      rw [scanBest_cons] at h
      obtain ⟨r, hr, -⟩ := foldl_scanStep_some t x
      rw [hr] at h
      exact absurd h (by simp)
  · intro h; rw [h]; rfl

theorem scanBest_spec (l : List (ℕ × ℤ)) (r : ℕ × ℤ)
    (h : scanBest l = some r) :
    r ∈ l ∧ ∀ y ∈ l, r.2 ≤ y.2 := by
  cases l with
  | nil => simp [scanBest_nil] at h
  | cons x t =>
    rw [scanBest_cons] at h
    obtain ⟨r', hr', hle, hcase, hmin⟩ := foldl_scanStep_some t x
    rw [hr'] at h
    obtain rfl : r' = r := Option.some.inj h
    constructor
    · rcases hcase with h | ⟨hm, -⟩
      · rw [h]; exact List.mem_cons_self x t
      · exact List.mem_cons_of_mem _ hm
    · intro y hy
      rcases List.mem_cons.mp hy with h | h
      · rw [h]; exact hle
      · exact hmin y h

/-- Splitting lemma for the fold: processing `l₁ ++ l₂` processes `l₁` first. -/
theorem scanBest_append (l₁ l₂ : List (ℕ × ℤ)) :
    scanBest (l₁ ++ l₂) = l₂.foldl scanStep (scanBest l₁) := by
  simp [scanBest, List.foldl_append]

/-!
## The bounded neighborhood and the cache-free reference search

`search_range(i, begin, end)` returns
`(i > begin + search_radius ? i - search_radius : begin,
  min(i + search_radius + 1, end))`.
The reference (cache-free) search — the one the spec describes — evaluates
`half_area(union(volume(i), volume(j)))` for every candidate `j`, backward
candidates in ascending order first, then forward candidates in ascending
order, keeping the first strict minimum.
-/

/-- Lower end of `search_range`. -/
def searchBegin (R b i : ℕ) : ℕ := if i > b + R then i - R else b

/-- Upper end of `search_range`. -/
def searchEnd (R e i : ℕ) : ℕ := min (i + R + 1) e

theorem searchBegin_eq_max (R b i : ℕ) : searchBegin R b i = max b (i - R) := by
  unfold searchBegin
  split
  · next h => omega
  · next h => omega

/-- Backward candidates `[search_begin, i)`, in scan order. -/
def backCands (R b i : ℕ) : List ℕ :=
  List.range' (searchBegin R b i) (i - searchBegin R b i)

/-- Forward candidates `(i, search_end)`, in scan order. -/
def fwdCands (R e i : ℕ) : List ℕ :=
  List.range' (i + 1) (searchEnd R e i - (i + 1))

/-- All candidates of `i`, in the order the C++ loops visit them. -/
def cands (R b e i : ℕ) : List ℕ := backCands R b i ++ fwdCands R e i

theorem mem_backCands (R b i j : ℕ) :
    j ∈ backCands R b i ↔ b ≤ j ∧ i ≤ j + R ∧ j < i := by
  unfold backCands
  rw [List.mem_range'_1, searchBegin_eq_max]
  omega

theorem mem_fwdCands (R e i j : ℕ) :
    j ∈ fwdCands R e i ↔ i < j ∧ j ≤ i + R ∧ j < e := by
  unfold fwdCands searchEnd
  rw [List.mem_range'_1]
  omega

theorem mem_cands (R b e i j : ℕ) (hb : b ≤ i) (he : i < e) :
    j ∈ cands R b e i ↔ b ≤ j ∧ j < e ∧ j ≠ i ∧ i ≤ j + R ∧ j ≤ i + R := by
  unfold cands
  rw [List.mem_append, mem_backCands, mem_fwdCands]
  omega

/-- Candidate symmetry: the neighborhoods are symmetric relations on the
active window. -/
theorem cands_symm (R b e i j : ℕ) (hbi : b ≤ i) (hei : i < e)
    (hbj : b ≤ j) (hej : j < e) (h : j ∈ cands R b e i) : i ∈ cands R b e j := by
  rw [mem_cands R b e i j hbi hei] at h
  rw [mem_cands R b e j i hbj hej]
  omega

/-- The candidate list is nonempty on a window of at least two nodes when
`search_radius ≥ 1` (otherwise the C++ `assert(best_neighbor != size_t(-1))`
fires). -/
theorem cands_ne_nil (R b e i : ℕ) (hR : 1 ≤ R) (hb : b ≤ i) (he : i < e)
    (hwin : b + 2 ≤ e) : cands R b e i ≠ [] := by
  intro hnil
  by_cases hib : i = b
  · have : b + 1 ∈ fwdCands R e i := by
      rw [mem_fwdCands]; omega
    have : b + 1 ∈ cands R b e i := List.mem_append_right _ this
    rw [hnil] at this
    exact absurd this (List.not_mem_nil _)
  · have : i - 1 ∈ backCands R b i := by
      rw [mem_backCands]; omega
    have : i - 1 ∈ cands R b e i := List.mem_append_left _ this
    rw [hnil] at this
    exact absurd this (List.not_mem_nil _)

/-- The reference candidate list with directly-evaluated merge costs
(`half_area(union(volume(i), volume(j)))` for every candidate `j`). -/
def refCandList {V : Type} (ops : VolOps V) (input : ℕ → BvhNode V)
    (R b e i : ℕ) : List (ℕ × ℤ) :=
  (cands R b e i).map (fun j => (j, mergeCost ops input i j))

/-- The cache-free reference best neighbor (with its cost). -/
def refBest {V : Type} (ops : VolOps V) (input : ℕ → BvhNode V)
    (R b e i : ℕ) : Option (ℕ × ℤ) :=
  scanBest (refCandList ops input R b e i)

/-- The cache-free reference neighbor of `i` (the unreachable empty-candidate
case, a fatal assertion in the C++, is mapped to `i` itself). -/
def nbrRef {V : Type} (ops : VolOps V) (input : ℕ → BvhNode V)
    (R b e i : ℕ) : ℕ :=
  ((refBest ops input R b e i).map Prod.fst).getD i

theorem refBest_isSome {V : Type} (ops : VolOps V) (input : ℕ → BvhNode V)
    (R b e i : ℕ) (hR : 1 ≤ R) (hb : b ≤ i) (he : i < e) (hwin : b + 2 ≤ e) :
    ∃ r, refBest ops input R b e i = some r := by
  rcases h : refBest ops input R b e i with - | r
  · exfalso
    unfold refBest at h
    rw [scanBest_eq_none_iff] at h
    have : cands R b e i = [] := by
      have := congrArg List.length h
      simpa [refCandList] using this
    exact cands_ne_nil R b e i hR hb he hwin this
  · exact ⟨r, rfl⟩

theorem refBest_spec {V : Type} (ops : VolOps V) (input : ℕ → BvhNode V)
    (R b e i : ℕ) (r : ℕ × ℤ) (h : refBest ops input R b e i = some r) :
    r.1 ∈ cands R b e i ∧ r.2 = mergeCost ops input i r.1 ∧
      ∀ j ∈ cands R b e i, r.2 ≤ mergeCost ops input i j := by
  obtain ⟨hmem, hmin⟩ := scanBest_spec _ _ h
  simp only [refCandList, List.mem_map] at hmem
  obtain ⟨j, hj, hjr⟩ := hmem
  refine ⟨?_, ?_, ?_⟩
  · rw [← hjr]; exact hj
  · rw [← hjr]
  · intro k hk
    exact hmin (k, mergeCost ops input i k)
      (List.mem_map.mpr ⟨k, hk, rfl⟩)

theorem nbrRef_eq {V : Type} (ops : VolOps V) (input : ℕ → BvhNode V)
    (R b e i : ℕ) (r : ℕ × ℤ) (h : refBest ops input R b e i = some r) :
    nbrRef ops input R b e i = r.1 := by
  simp [nbrRef, h]

theorem nbrRef_mem_cands {V : Type} (ops : VolOps V) (input : ℕ → BvhNode V)
    (R b e i : ℕ) (hR : 1 ≤ R) (hb : b ≤ i) (he : i < e) (hwin : b + 2 ≤ e) :
    nbrRef ops input R b e i ∈ cands R b e i := by
  obtain ⟨r, hr⟩ := refBest_isSome ops input R b e i hR hb he hwin
  rw [nbrRef_eq ops input R b e i r hr]
  exact (refBest_spec ops input R b e i r hr).1

theorem nbrRef_min {V : Type} (ops : VolOps V) (input : ℕ → BvhNode V)
    (R b e i : ℕ) (hR : 1 ≤ R) (hb : b ≤ i) (he : i < e) (hwin : b + 2 ≤ e) :
    ∀ j ∈ cands R b e i,
      mergeCost ops input i (nbrRef ops input R b e i) ≤ mergeCost ops input i j := by
  obtain ⟨r, hr⟩ := refBest_isSome ops input R b e i hR hb he hwin
  obtain ⟨-, hval, hmin⟩ := refBest_spec ops input R b e i r hr
  rw [nbrRef_eq ops input R b e i r hr]
  intro j hj
  rw [← hval]
  exact hmin j hj

/-!
## Tie-breaking: the scan keeps the first candidate attaining the minimum

The backward candidates are visited in ascending index order before any
forward candidate; consequently, whenever a backward candidate attains the
final minimum, the selected neighbor's index is at most that candidate's.
This pins down the deterministic tie-break used by the termination argument.
-/

theorem scanBest_first_back (A rest : List (ℕ × ℤ)) (m : ℕ) (δ : ℤ)
    (hA : ∀ y ∈ A, y.1 < m) (r : ℕ × ℤ)
    (h : scanBest (A ++ (m, δ) :: rest) = some r) (hval : r.2 = δ) :
    r.1 ≤ m := by
  rw [scanBest_append, List.foldl_cons] at h
  have hacc : ∃ p, scanStep (scanBest A) (m, δ) = some p ∧
      p.2 ≤ δ ∧ (p.2 = δ → p.1 ≤ m) := by
    rcases hA0 : scanBest A with - | bb
    · exact ⟨(m, δ), by simp [scanStep, hA0], le_refl _, fun _ => le_refl m⟩
    · have hbmem := (scanBest_spec A bb hA0).1
      have hblt : bb.1 < m := hA bb hbmem
      by_cases hd : δ < bb.2
      · refine ⟨(m, δ), ?_, le_refl _, fun _ => le_refl m⟩
        simp [scanStep, hA0, hd]
      · refine ⟨bb, ?_, le_of_not_lt hd, fun _ => le_of_lt hblt⟩
        simp [scanStep, hA0, hd]
  obtain ⟨p, hp, hple, hpm⟩ := hacc
  rw [hp] at h
  obtain ⟨r', hr', hrle, hcase, -⟩ := foldl_scanStep_some rest p
  rw [hr'] at h
  have hrr : r' = r := Option.some.inj h
  rw [hrr] at hrle hcase
  rcases hcase with hc | ⟨-, hlt⟩
  · rw [hc]
    apply hpm
    have h1 : δ ≤ p.2 := by rw [← hval]; exact hrle
    exact le_antisymm hple h1
  · exfalso
    have : r.2 < δ := lt_of_lt_of_le hlt hple
    rw [hval] at this
    exact lt_irrefl δ this

/-- Splitting the reference candidate list at a backward candidate `m`:
everything before `m` in scan order that has `m`'s own cost position is a
backward candidate of smaller index. -/
theorem refCandList_split_back {V : Type} (ops : VolOps V)
    (input : ℕ → BvhNode V) (R b e w m : ℕ) (hm : m ∈ backCands R b w) :
    ∃ A rest, refCandList ops input R b e w =
        A ++ (m, mergeCost ops input w m) :: rest ∧ ∀ y ∈ A, y.1 < m := by
  have hmem := hm
  unfold backCands at hmem
  rw [List.mem_range'_1] at hmem
  obtain ⟨hsb, hlt⟩ := hmem
  set sb := searchBegin R b w with hsbdef
  have hwm : m < w := by
    have := (mem_backCands R b w m).mp hm
    omega
  have hsplit : backCands R b w =
      List.range' sb (m - sb) ++ m :: List.range' (m + 1) (w - m - 1) := by
    unfold backCands
    rw [← hsbdef]
    have h1 : List.range' sb (m - sb) ++ List.range' (sb + (m - sb)) (w - sb - (m - sb)) =
        List.range' sb ((w - sb - (m - sb)) + (m - sb)) := by
      simpa using List.range'_append sb (m - sb) (w - sb - (m - sb)) 1
    have h2 : sb + (m - sb) = m := by omega
    have h3 : (w - sb - (m - sb)) + (m - sb) = w - sb := by omega
    have h4 : w - sb - (m - sb) = (w - m - 1) + 1 := by omega
    rw [h2, h3] at h1
    rw [← h1, h4]
    rfl
  refine ⟨(List.range' sb (m - sb)).map
      (fun j => (j, mergeCost ops input w j)),
    (List.range' (m + 1) (w - m - 1)).map
      (fun j => (j, mergeCost ops input w j)) ++
      (fwdCands R e w).map (fun j => (j, mergeCost ops input w j)), ?_, ?_⟩
  · unfold refCandList cands
    rw [hsplit]
    simp [List.map_append]
  · intro y hy
    simp only [List.mem_map] at hy
    obtain ⟨j, hj, rfl⟩ := hy
    rw [List.mem_range'_1] at hj
    omega

/-!
## Existence of a mutual nearest-neighbor pair

On any active window with at least two nodes and `search_radius ≥ 1`, and for
a symmetric merge cost, some pair of nodes select each other: take the least
index `m` attaining the globally minimal best-cost `δ`; its neighbor `w`
also attains `δ`, and since `m` is a backward candidate of `w` attaining
`w`'s minimum, the first-minimum tie-break forces `w`'s neighbor back to `m`.
This is what makes every clustering round merge at least one pair (otherwise
the round loop would not terminate).
-/

theorem exists_mutual_pair {V : Type} (ops : VolOps V) (input : ℕ → BvhNode V)
    (R b e : ℕ) (hR : 1 ≤ R) (hwin : b + 2 ≤ e)
    (hsym : ∀ i j, mergeCost ops input i j = mergeCost ops input j i) :
    ∃ p q, b ≤ p ∧ p < q ∧ q < e ∧
      nbrRef ops input R b e p = q ∧ nbrRef ops input R b e q = p := by
  set f := fun i => nbrRef ops input R b e i with hf
  set μ := fun i => mergeCost ops input i (f i) with hμ
  have hbe : b < e := by omega
  have hWne : (Finset.Ico b e).Nonempty := by
    rw [Finset.nonempty_Ico]; omega
  -- best-cost facts for every window node
  have hfc : ∀ i, b ≤ i → i < e → f i ∈ cands R b e i := fun i h1 h2 =>
    nbrRef_mem_cands ops input R b e i hR h1 h2 hwin
  have hfmin : ∀ i, b ≤ i → i < e → ∀ j ∈ cands R b e i,
      μ i ≤ mergeCost ops input i j := fun i h1 h2 =>
    nbrRef_min ops input R b e i hR h1 h2 hwin
  -- the global minimum best-cost δ and its least attainer m
  set δ := ((Finset.Ico b e).image μ).min'
    (hWne.image μ) with hδ
  have hδle : ∀ i ∈ Finset.Ico b e, δ ≤ μ i := fun i hi =>
    Finset.min'_le _ _ (Finset.mem_image_of_mem μ hi)
  have hδmem : δ ∈ (Finset.Ico b e).image μ := Finset.min'_mem _ _
  obtain ⟨i0, hi0W, hi0⟩ := Finset.mem_image.mp hδmem
  have hFne : ((Finset.Ico b e).filter (fun i => μ i = δ)).Nonempty :=
    ⟨i0, Finset.mem_filter.mpr ⟨hi0W, hi0⟩⟩
  set m := ((Finset.Ico b e).filter (fun i => μ i = δ)).min' hFne with hm
  have hmmem := Finset.min'_mem _ hFne
  rw [← hm, Finset.mem_filter, Finset.mem_Ico] at hmmem
  obtain ⟨⟨hbm, hme⟩, hμm⟩ := hmmem
  have hmleast : ∀ i, b ≤ i → i < e → μ i = δ → m ≤ i := by
    intro i h1 h2 h3
    exact Finset.min'_le _ _
      (Finset.mem_filter.mpr ⟨Finset.mem_Ico.mpr ⟨h1, h2⟩, h3⟩)
  -- w := the neighbor of m also attains δ and lies above m
  set w := f m with hw
  have hwcand : w ∈ cands R b e m := hfc m hbm hme
  have hwprops := (mem_cands R b e m w hbm hme).mp hwcand
  obtain ⟨hbw, hwe, hwne, hmwR, hwmR⟩ := hwprops
  have hmcand : m ∈ cands R b e w :=
    cands_symm R b e m w hbm hme hbw hwe hwcand
  have hcostwm : mergeCost ops input w m = δ := by
    rw [hsym w m]
    rw [hμ] at hμm
    simp only at hμm
    rw [← hw] at hμm
    exact hμm
  have hμw : μ w = δ := by
    have h1 : μ w ≤ δ := by
      have := hfmin w hbw hwe m hmcand
      rw [hcostwm] at this
      exact this
    have h2 : δ ≤ μ w := hδle w (Finset.mem_Ico.mpr ⟨hbw, hwe⟩)
    exact le_antisymm h1 h2
  have hmw : m < w := by
    have : m ≤ w := hmleast w hbw hwe hμw
    omega
  -- f w ≤ m by the first-minimum tie-break
  have hmback : m ∈ backCands R b w := by
    rw [mem_backCands]
    exact ⟨hbm, by omega, hmw⟩
  obtain ⟨r, hr⟩ := refBest_isSome ops input R b e w hR hbw hwe hwin
  obtain ⟨hrmem, hrval, -⟩ := refBest_spec ops input R b e w r hr
  have hfwr : f w = r.1 := nbrRef_eq ops input R b e w r hr
  have hrval2 : r.2 = δ := by
    rw [hrval, ← hfwr]
    have : mergeCost ops input w (f w) = μ w := rfl
    rw [this, hμw]
  obtain ⟨A, rest, hAl, hA⟩ :=
    refCandList_split_back ops input R b e w m hmback
  have hfle : r.1 ≤ m := by
    apply scanBest_first_back A rest m δ hA r _ hrval2
    rw [← hcostwm, ← hAl]
    exact hr
  -- f w ≥ m since f w also attains δ
  have hfwcand : f w ∈ cands R b e w := hfc w hbw hwe
  have hfwprops := (mem_cands R b e w (f w) hbw hwe).mp hfwcand
  obtain ⟨hbfw, hfwe, -, -, -⟩ := hfwprops
  have hwcand2 : w ∈ cands R b e (f w) :=
    cands_symm R b e w (f w) hbw hwe hbfw hfwe hfwcand
  have hμfw : μ (f w) = δ := by
    have h1 : μ (f w) ≤ mergeCost ops input (f w) w :=
      hfmin (f w) hbfw hfwe w hwcand2
    have h2 : mergeCost ops input (f w) w = δ := by
      rw [hsym]
      have : mergeCost ops input w (f w) = μ w := rfl
      rw [this, hμw]
    have h3 : δ ≤ μ (f w) := hδle (f w) (Finset.mem_Ico.mpr ⟨hbfw, hfwe⟩)
    rw [h2] at h1
    exact le_antisymm h1 h3
  have hge : m ≤ f w := hmleast (f w) hbfw hfwe hμfw
  have hfwm : f w = m := by
    rw [hfwr] at hge ⊢
    omega
  exact ⟨m, w, hbm, hmw, hwe, rfl, hfwm⟩

/-!
## The sliding distance-matrix cache

The C++ search keeps a `(search_radius + 1) × search_radius` matrix of
cached costs. Row `d` holds (after the rotations) the costs of node
`i - d` against its forward neighborhood; the backward scan for node `i`
reads `distance_matrix[i - j][i - j - 1]`, the forward scan writes
`distance_matrix[0][j - i - 1]`, and after each node the rows are rotated
by one (`std::move_backward` + recycling the last row as the new row 0).
The matrix is modelled as a total function `ℕ → ℕ → ℤ` (zero-initialized,
as `make_unique<Scalar[]>` value-initializes).
-/

/-- Point update of the matrix. -/
def mupd (M : ℕ → ℕ → ℤ) (r c : ℕ) (v : ℤ) : ℕ → ℕ → ℤ :=
  fun rr cc => if rr = r ∧ cc = c then v else M rr cc

theorem mupd_same (M : ℕ → ℕ → ℤ) (r c : ℕ) (v : ℤ) : mupd M r c v r c = v := by
  simp [mupd]

theorem mupd_other (M : ℕ → ℕ → ℤ) (r c : ℕ) (v : ℤ) (rr cc : ℕ)
    (h : rr ≠ r ∨ cc ≠ c) : mupd M r c v rr cc = M rr cc := by
  unfold mupd
  have : ¬(rr = r ∧ cc = c) := by
    rintro ⟨h1, h2⟩
    rcases h with h | h
    · exact h h1
    · exact h h2
  simp [this]

/-- The row rotation after each node: `move_backward` shifts rows `0..R-1`
to `1..R` and recycles old row `R` as the new row 0. -/
def rotateM (R : ℕ) (M : ℕ → ℕ → ℤ) : ℕ → ℕ → ℤ :=
  fun rr cc => if rr = 0 then M R cc else M (rr - 1) cc

/-- A fold of single-row updates leaves other rows untouched. -/
theorem foldl_mupd_row (row : ℕ) (f : ℕ → ℕ) (g : ℕ → ℤ) (js : List ℕ)
    (M : ℕ → ℕ → ℤ) (rr cc : ℕ) (h : rr ≠ row) :
    (js.foldl (fun M2 j2 => mupd M2 row (f j2) (g j2)) M) rr cc = M rr cc := by
  induction js generalizing M with
  | nil => rfl
  | cons x t ih =>
    rw [List.foldl_cons, ih]
    exact mupd_other M row (f x) (g x) rr cc (Or.inl h)

/-- A fold of single-row updates leaves unwritten columns untouched. -/
theorem foldl_mupd_col (row : ℕ) (f : ℕ → ℕ) (g : ℕ → ℤ) (js : List ℕ)
    (M : ℕ → ℕ → ℤ) (rr cc : ℕ) (h : ∀ j ∈ js, f j ≠ cc) :
    (js.foldl (fun M2 j2 => mupd M2 row (f j2) (g j2)) M) rr cc = M rr cc := by
  induction js generalizing M with
  | nil => rfl
  | cons x t ih =>
    rw [List.foldl_cons, ih _ (fun j hj => h j (List.mem_cons_of_mem x hj))]
    exact mupd_other M row (f x) (g x) rr cc (Or.inr (Ne.symm (h x (List.mem_cons_self x t))))

/-- Lookup after a fold of single-row updates with injective column keys. -/
theorem foldl_mupd_lookup (row : ℕ) (f : ℕ → ℕ) (g : ℕ → ℤ) (js : List ℕ)
    (M : ℕ → ℕ → ℤ) (j : ℕ) (hj : j ∈ js)
    (hinj : ∀ j2 ∈ js, f j2 = f j → j2 = j) :
    (js.foldl (fun M2 j2 => mupd M2 row (f j2) (g j2)) M) row (f j) = g j := by
  induction js generalizing M with
  | nil => exact absurd hj (List.not_mem_nil j)
  | cons x t ih =>
    rw [List.foldl_cons]
    by_cases hjt : j ∈ t
    · exact ih _ hjt (fun j2 h2 => hinj j2 (List.mem_cons_of_mem x h2))
    · have hxj : x = j := by
        rcases List.mem_cons.mp hj with h | h
        · exact h.symm
        · exact absurd h hjt
      rw [hxj]
      rw [foldl_mupd_col row f g t _ row (f j) ?_]
      · exact mupd_same M row (f j) (g j)
      · intro j2 hj2 hfe
        exact hjt ((hinj j2 (List.mem_cons_of_mem x hj2) hfe) ▸ hj2)

/-- The matrix after the initialization loop of a chunk starting at `cb`
(lines: for `i` in `[search_range(cb).first, cb)`, for `j` in
`(i, search_range(i).second)`, write `cost(i, j)` at row `cb - i`,
column `j - i - 1`). -/
def initMatrix {V : Type} (ops : VolOps V) (input : ℕ → BvhNode V)
    (R b e cb : ℕ) : ℕ → ℕ → ℤ :=
  (backCands R b cb).foldl
    (fun M i =>
      (fwdCands R e i).foldl
        (fun M2 j => mupd M2 (cb - i) (j - i - 1) (mergeCost ops input i j)) M)
    (fun _ _ => 0)

/-- Backward candidate list of node `i` read from the cache
(`distance_matrix[i - j][i - j - 1]`). -/
def cacheBackList (M : ℕ → ℕ → ℤ) (R b i : ℕ) : List (ℕ × ℤ) :=
  (backCands R b i).map (fun j => (j, M (i - j) (i - j - 1)))

/-- Forward candidate list, directly evaluated (and cached). -/
def cacheFwdList {V : Type} (ops : VolOps V) (input : ℕ → BvhNode V)
    (R e i : ℕ) : List (ℕ × ℤ) :=
  (fwdCands R e i).map (fun j => (j, mergeCost ops input i j))

/-- Processing one node `i` of a chunk: select the best neighbor from the
cached backward costs and the directly-computed forward costs, store the
forward costs into row 0, rotate the matrix. -/
def cacheStep {V : Type} (ops : VolOps V) (input : ℕ → BvhNode V)
    (R b e : ℕ) (st : (ℕ → ℕ → ℤ) × (ℕ → ℕ)) (i : ℕ) :
    (ℕ → ℕ → ℤ) × (ℕ → ℕ) :=
  let best := scanBest (cacheBackList st.1 R b i ++ cacheFwdList ops input R e i)
  let M1 := (fwdCands R e i).foldl
    (fun M2 j => mupd M2 0 (j - i - 1) (mergeCost ops input i j)) st.1
  (rotateM R M1, Function.update st.2 i ((best.map Prod.fst).getD i))

/-- Neighbors computed by one worker's chunk `[cb, ce)` (the neighbor map is
seeded with the identity; only entries in `[cb, ce)` are ever written, which
is how the disjoint per-thread writes of the C++ are modelled). -/
def chunkNbr {V : Type} (ops : VolOps V) (input : ℕ → BvhNode V)
    (R b e cb ce : ℕ) : ℕ → ℕ :=
  ((List.range' cb (ce - cb)).foldl (cacheStep ops input R b e)
    (initMatrix ops input R b e cb, fun i => i)).2

/-- The cache invariant: before node `c` is processed, row `c - a` holds
node `a`'s forward costs, for every `a` within `R` below `c` inside the
window. -/
def MatInv {V : Type} (ops : VolOps V) (input : ℕ → BvhNode V)
    (R b e c : ℕ) (M : ℕ → ℕ → ℤ) : Prop :=
  ∀ a bb : ℕ, b ≤ a → a < c → c ≤ a + R → a < bb → bb < searchEnd R e a →
    M (c - a) (bb - a - 1) = mergeCost ops input a bb

/-- The initialization loop establishes the invariant at the chunk start. -/
theorem initMatrix_inv {V : Type} (ops : VolOps V) (input : ℕ → BvhNode V)
    (R b e cb : ℕ) :
    MatInv ops input R b e cb (initMatrix ops input R b e cb) := by
  intro a bb hba hacb hcbR habb hbbse
  have hamem : a ∈ backCands R b cb := by
    rw [mem_backCands]
    exact ⟨hba, hcbR, hacb⟩
  have hbbmem : bb ∈ fwdCands R e a := by
    rw [mem_fwdCands]
    unfold searchEnd at hbbse
    omega
  unfold initMatrix
  -- split the outer fold at `a`; other outer iterations write different rows
  have key : ∀ (l : List ℕ) (M : ℕ → ℕ → ℤ), a ∈ l →
      (∀ a2 ∈ l, a2 < cb) →
      (l.foldl (fun M i => (fwdCands R e i).foldl
        (fun M2 j => mupd M2 (cb - i) (j - i - 1) (mergeCost ops input i j)) M)
        M) (cb - a) (bb - a - 1) = mergeCost ops input a bb := by
    intro l
    induction l with
    | nil => intro M h; exact absurd h (List.not_mem_nil a)
    | cons x t ih =>
      intro M hmem hlt
      rw [List.foldl_cons]
      by_cases hat : a ∈ t
      · exact ih _ hat (fun a2 h2 => hlt a2 (List.mem_cons_of_mem x h2))
      · have hxa : x = a := by
          rcases List.mem_cons.mp hmem with h | h
          · exact h.symm
          · exact absurd h hat
        rw [hxa]
        -- the remaining outer iterations write rows `cb - a2` with `a2 ∈ t`;
        -- if they touched row `cb - a` we would get `a2 = a ∈ t`
        have hrow : ∀ (t2 : List ℕ) (M2 : ℕ → ℕ → ℤ),
            (∀ a2 ∈ t2, a2 < cb ∧ a2 ≠ a) →
            (t2.foldl (fun M i => (fwdCands R e i).foldl
              (fun M3 j => mupd M3 (cb - i) (j - i - 1) (mergeCost ops input i j)) M)
              M2) (cb - a) (bb - a - 1) = M2 (cb - a) (bb - a - 1) := by
          intro t2
          induction t2 with
          | nil => intro M2 h2; rfl
          | cons y s ihs =>
            intro M2 h2
            rw [List.foldl_cons]
            rw [ihs _ (fun a2 ha2 => h2 a2 (List.mem_cons_of_mem y ha2))]
            apply foldl_mupd_row
            have hy := h2 y (List.mem_cons_self y s)
            omega
        rw [hrow t _ (fun a2 ha2 =>
          ⟨hlt a2 (List.mem_cons_of_mem x ha2), fun hc => hat (hc ▸ ha2)⟩)]
        have : bb - a - 1 = (fun j => j - a - 1) bb := rfl
        rw [this]
        apply foldl_mupd_lookup (cb - a) (fun j => j - a - 1)
          (fun j => mergeCost ops input a j) (fwdCands R e a) M bb hbbmem
        intro j2 hj2 hje
        rw [mem_fwdCands] at hj2
        omega
  apply key
  · exact hamem
  · intro a2 h2
    rw [mem_backCands] at h2
    omega

/-- Processing node `c` maintains the cache invariant for node `c + 1`:
the forward writes fill row 0 with `c`'s costs, and the rotation shifts
every cached row one step down. -/
theorem matInv_step {V : Type} (ops : VolOps V) (input : ℕ → BvhNode V)
    (R b e c : ℕ) (M : ℕ → ℕ → ℤ) (hinv : MatInv ops input R b e c M) :
    MatInv ops input R b e (c + 1)
      (rotateM R ((fwdCands R e c).foldl
        (fun M2 j => mupd M2 0 (j - c - 1) (mergeCost ops input c j)) M)) := by
  intro a bb hba ha hc1R habb hbbse
  have hrow : c + 1 - a ≠ 0 := by omega
  unfold rotateM
  rw [if_neg hrow]
  have hrow2 : c + 1 - a - 1 = c - a := by omega
  rw [hrow2]
  by_cases hac : a = c
  · subst hac
    have hmem : bb ∈ fwdCands R e a := by
      rw [mem_fwdCands]
      unfold searchEnd at hbbse
      omega
    have hca : a - a = 0 := by omega
    rw [hca]
    have : bb - a - 1 = (fun j => j - a - 1) bb := rfl
    rw [this]
    apply foldl_mupd_lookup 0 (fun j => j - a - 1)
      (fun j => mergeCost ops input a j) (fwdCands R e a) M bb hmem
    intro j2 hj2 hje
    rw [mem_fwdCands] at hj2
    rw [mem_fwdCands] at hmem
    omega
  · have hac2 : a < c := by omega
    rw [foldl_mupd_row 0 _ _ _ _ _ _ (by omega)]
    exact hinv a bb hba hac2 (by omega) habb hbbse

/-- The per-chunk fold: the matrix invariant holds before each node, every
processed node's neighbor equals the cache-free reference neighbor, and
entries outside the chunk are untouched. -/
theorem chunkFold_spec {V : Type} (ops : VolOps V) (input : ℕ → BvhNode V)
    (R b e cb : ℕ) (hR : 1 ≤ R) (hbcb : b ≤ cb) (hwin : b + 2 ≤ e)
    (hsym : ∀ i j, mergeCost ops input i j = mergeCost ops input j i)
    (n : ℕ) (hn : cb + n ≤ e) :
    MatInv ops input R b e (cb + n)
      ((List.range' cb n).foldl (cacheStep ops input R b e)
        (initMatrix ops input R b e cb, fun i => i)).1 ∧
    (∀ i, cb ≤ i → i < cb + n →
      ((List.range' cb n).foldl (cacheStep ops input R b e)
        (initMatrix ops input R b e cb, fun i => i)).2 i =
        nbrRef ops input R b e i) ∧
    (∀ i, i < cb ∨ cb + n ≤ i →
      ((List.range' cb n).foldl (cacheStep ops input R b e)
        (initMatrix ops input R b e cb, fun i => i)).2 i = i) := by
  induction n with
  | zero =>
    refine ⟨?_, ?_, ?_⟩
    · simpa using initMatrix_inv ops input R b e cb
    · intro i h1 h2; omega
    · intro i h; rfl
  | succ n ih =>
    have hn' : cb + n ≤ e := by omega
    obtain ⟨ihM, ihN, ihU⟩ := ih hn'
    have hconcat : List.range' cb (n + 1) = List.range' cb n ++ [cb + n] :=
      List.range'_1_concat cb n
    rw [hconcat, List.foldl_append, List.foldl_cons, List.foldl_nil]
    set st := (List.range' cb n).foldl (cacheStep ops input R b e)
      (initMatrix ops input R b e cb, fun i => i) with hst
    set c := cb + n with hc
    -- the cached backward candidate list at `c` equals the reference one
    have hback : cacheBackList st.1 R b c =
        (backCands R b c).map (fun j => (j, mergeCost ops input c j)) := by
      unfold cacheBackList
      apply List.map_congr_left
      intro j hj
      rw [mem_backCands] at hj
      have hval : st.1 (c - j) (c - j - 1) = mergeCost ops input j c := by
        apply ihM j c
        · exact hj.1
        · omega
        · omega
        · omega
        · unfold searchEnd
          omega
      rw [hval, hsym j c]
    constructor
    · -- matrix invariant advances to c + 1
      unfold cacheStep
      simp only
      exact matInv_step ops input R b e c st.1 ihM
    constructor
    · -- all neighbors up to c + 1 agree with the reference
      intro i h1 h2
      unfold cacheStep
      simp only
      by_cases hic : i = c
      · subst hic
        rw [Function.update_same]
        have hlist : cacheBackList st.1 R b c ++ cacheFwdList ops input R e c =
            refCandList ops input R b e c := by
          rw [hback]
          unfold cacheFwdList refCandList cands
          rw [List.map_append]
        rw [hlist]
        rfl
      · rw [Function.update_noteq hic]
        exact ihN i h1 (by omega)
    · -- entries outside the chunk stay untouched
      intro i h
      unfold cacheStep
      simp only
      have hic : i ≠ c := by omega
      rw [Function.update_noteq hic]
      exact ihU i (by omega)

/-- The neighbor a chunk `[cb, ce)` computes through the sliding cache is the
cache-free reference neighbor, for every node of the chunk. -/
theorem chunkNbr_eq_nbrRef {V : Type} (ops : VolOps V) (input : ℕ → BvhNode V)
    (R b e cb ce : ℕ) (hR : 1 ≤ R) (hbcb : b ≤ cb) (hce : ce ≤ e)
    (hwin : b + 2 ≤ e)
    (hsym : ∀ i j, mergeCost ops input i j = mergeCost ops input j i)
    (i : ℕ) (h1 : cb ≤ i) (h2 : i < ce) :
    chunkNbr ops input R b e cb ce i = nbrRef ops input R b e i := by
  unfold chunkNbr
  have hn : cb + (ce - cb) ≤ e := by omega
  obtain ⟨-, hN, -⟩ := chunkFold_spec ops input R b e cb hR hbcb hwin hsym
    (ce - cb) hn
  exact hN i h1 (by omega)

/-!
## The per-thread chunk partition

`chunk_size = (end - begin) / thread_count`;
thread `t` owns `[begin + t * chunk_size, ...)`, the last thread's chunk
extends to `end`. Each window index is owned by exactly one thread.
-/

/-- `chunk_size = (end - begin) / thread_count`. -/
def chunkSizeOf (T b e : ℕ) : ℕ := (e - b) / T

/-- `chunk_begin = begin + thread_id * chunk_size`. -/
def chunkBeginOf (T b e t : ℕ) : ℕ := b + t * chunkSizeOf T b e

/-- `chunk_end = thread_id != thread_count - 1 ? chunk_begin + chunk_size
: end`. -/
def chunkEndOf (T b e t : ℕ) : ℕ :=
  if t ≠ T - 1 then chunkBeginOf T b e t + chunkSizeOf T b e else e

/-- The thread owning window index `i`. -/
def threadOf (T b e i : ℕ) : ℕ :=
  if chunkSizeOf T b e = 0 then T - 1
  else min ((i - b) / chunkSizeOf T b e) (T - 1)

/-- The neighbor array produced by `T` worker threads, each running the
sliding-cache search over its own chunk with its own private matrix. -/
def nbrPar {V : Type} (ops : VolOps V) (input : ℕ → BvhNode V)
    (R T b e : ℕ) : ℕ → ℕ := fun i =>
  chunkNbr ops input R b e
    (chunkBeginOf T b e (threadOf T b e i))
    (chunkEndOf T b e (threadOf T b e i)) i

/-- Every window index lies inside its owning thread's chunk, and the chunk
is inside the window. -/
theorem threadOf_owns (T b e i : ℕ) (hT : 1 ≤ T) (h1 : b ≤ i) (h2 : i < e) :
    b ≤ chunkBeginOf T b e (threadOf T b e i) ∧
    chunkBeginOf T b e (threadOf T b e i) ≤ i ∧
    i < chunkEndOf T b e (threadOf T b e i) ∧
    chunkEndOf T b e (threadOf T b e i) ≤ e := by
  set cs := chunkSizeOf T b e with hcsdef
  have hcs : cs = (e - b) / T := hcsdef
  have hcsle : T * cs ≤ e - b := by
    rw [hcs, Nat.mul_comm]
    exact Nat.div_mul_le_self (e - b) T
  by_cases hz : cs = 0
  · unfold threadOf chunkEndOf chunkBeginOf
    rw [← hcsdef, if_pos hz]
    simp [hz]
    omega
  · have hcspos : 0 < cs := Nat.pos_of_ne_zero hz
    set q := (i - b) / cs with hq
    have hmod : (i - b) % cs < cs := Nat.mod_lt (i - b) hcspos
    have hdm : cs * q + (i - b) % cs = i - b := by
      rw [hq]
      exact Nat.div_add_mod (i - b) cs
    have hmc : cs * q = q * cs := Nat.mul_comm cs q
    unfold threadOf
    rw [← hcsdef, if_neg hz, ← hq]
    by_cases hqT : q < T - 1
    · have hmin : min q (T - 1) = q := by omega
      rw [hmin]
      unfold chunkEndOf chunkBeginOf
      rw [← hcsdef]
      have hne : q ≠ T - 1 := by omega
      rw [if_pos hne]
      have hchain : q * cs + cs ≤ T * cs := by
        have h3 : (q + 1) * cs ≤ T * cs := Nat.mul_le_mul_right cs (by omega)
        have h4 : (q + 1) * cs = q * cs + cs := by ring
        omega
      omega
    · have hmin : min q (T - 1) = T - 1 := by omega
      rw [hmin]
      unfold chunkEndOf chunkBeginOf
      rw [← hcsdef]
      have hne : ¬(T - 1 ≠ T - 1) := by omega
      rw [if_neg hne]
      have hchain : (T - 1) * cs ≤ q * cs := Nat.mul_le_mul_right cs (by omega)
      have hchain2 : (T - 1) * cs + cs ≤ T * cs + cs := by
        have h3 : (T - 1) * cs ≤ T * cs := Nat.mul_le_mul_right cs (by omega)
        omega
      omega

/-- Thread-count irrelevance of the neighbor phase: for any number of worker
threads, every window node's neighbor equals the cache-free reference
neighbor (hence is independent of the chunk partition). -/
theorem nbrPar_eq_nbrRef {V : Type} (ops : VolOps V) (input : ℕ → BvhNode V)
    (R T b e : ℕ) (hR : 1 ≤ R) (hT : 1 ≤ T) (hwin : b + 2 ≤ e)
    (hsym : ∀ i j, mergeCost ops input i j = mergeCost ops input j i)
    (i : ℕ) (h1 : b ≤ i) (h2 : i < e) :
    nbrPar ops input R T b e i = nbrRef ops input R b e i := by
  obtain ⟨ha, hb2, hc2, hd2⟩ := threadOf_owns T b e i hT h1 h2
  exact chunkNbr_eq_nbrRef ops input R b e _ _ hR ha hd2 hwin hsym i hb2 hc2

/-!
## Merge flags, the prefix sum, and output ranks

Phase 2 of a round (`merged_index[i] = i < j && neighbors[j] == i ? 1 : 0`)
followed by an in-place inclusive prefix sum over the window (the external
`PrefixSum` utility; `merged_count = merged_index[end - 1]` shows the scan
is inclusive).
-/

/-- The merge flag of node `i`: 1 iff `i` is the lower-indexed member of a
mutual nearest-neighbor pair. -/
def mergedFlag (nbr : ℕ → ℕ) (i : ℕ) : ℕ :=
  if i < nbr i ∧ nbr (nbr i) = i then 1 else 0

/-- Sum of the merge flags of the first `n` window nodes. -/
def cntFlag (nbr : ℕ → ℕ) (b n : ℕ) : ℕ :=
  ((List.range' b n).map (mergedFlag nbr)).sum

/-- Modelled from the spec: the external `PrefixSum` utility computes an
inclusive prefix sum of the merge flags over the window, so
`merged_index[i]` after phase 2 is the flag total over `[begin, i]`. -/
def psum (nbr : ℕ → ℕ) (b i : ℕ) : ℕ := cntFlag nbr b (i + 1 - b)

theorem mergedFlag_le_one (nbr : ℕ → ℕ) (i : ℕ) : mergedFlag nbr i ≤ 1 := by
  unfold mergedFlag
  split <;> omega

theorem cntFlag_zero (nbr : ℕ → ℕ) (b : ℕ) : cntFlag nbr b 0 = 0 := rfl

theorem cntFlag_succ (nbr : ℕ → ℕ) (b n : ℕ) :
    cntFlag nbr b (n + 1) = cntFlag nbr b n + mergedFlag nbr (b + n) := by
  unfold cntFlag
  rw [List.range'_1_concat, List.map_append, List.sum_append]
  simp

theorem cntFlag_le (nbr : ℕ → ℕ) (b n : ℕ) : cntFlag nbr b n ≤ n := by
  induction n with
  | zero => simp [cntFlag_zero]
  | succ n ih =>
    rw [cntFlag_succ]
    have := mergedFlag_le_one nbr (b + n)
    omega

theorem cntFlag_mono (nbr : ℕ → ℕ) (b : ℕ) {n n' : ℕ} (h : n ≤ n') :
    cntFlag nbr b n ≤ cntFlag nbr b n' := by
  induction n' with
  | zero =>
    have : n = 0 := by omega
    rw [this]
  | succ k ih =>
    by_cases hk : n = k + 1
    · rw [hk]
    · have : n ≤ k := by omega
      rw [cntFlag_succ]
      have := ih this
      omega

theorem psum_eq (nbr : ℕ → ℕ) (b i : ℕ) (h : b ≤ i) :
    psum nbr b i = cntFlag nbr b (i - b) + mergedFlag nbr i := by
  unfold psum
  have h1 : i + 1 - b = (i - b) + 1 := by omega
  rw [h1, cntFlag_succ]
  have h2 : b + (i - b) = i := by omega
  rw [h2]

theorem psum_last (nbr : ℕ → ℕ) (b e : ℕ) (h : b < e) :
    psum nbr b (e - 1) = cntFlag nbr b (e - b) := by
  unfold psum
  have h1 : e - 1 + 1 - b = e - b := by omega
  rw [h1]

/-- Ranks of the non-owner window nodes (merge flag 0) are exactly
`0, 1, …` in index order: the list of values `i - begin - psum i` over the
non-owners of the first `n` window nodes is the initial segment of naturals
of length `n - cntFlag n`. -/
theorem rank_map_nonOwners (nbr : ℕ → ℕ) (b : ℕ) : ∀ n,
    ((List.range' b n).filter (fun i => mergedFlag nbr i = 0)).map
      (fun i => i - b - psum nbr b i) = List.range (n - cntFlag nbr b n) := by
  intro n
  induction n with
  | zero => rfl
  | succ n ih =>
    rw [List.range'_1_concat, List.filter_append, List.map_append, ih,
      cntFlag_succ]
    by_cases hf : mergedFlag nbr (b + n) = 0
    · have hflt : List.filter (fun i => decide (mergedFlag nbr i = 0)) [b + n]
          = [b + n] := by
        simp [hf]
      rw [hflt]
      have hps : psum nbr b (b + n) = cntFlag nbr b n := by
        rw [psum_eq nbr b (b + n) (by omega)]
        have : b + n - b = n := by omega
        rw [this, hf]
        omega
      have hcle := cntFlag_le nbr b n
      have hlen : n + 1 - (cntFlag nbr b n + 0) = (n - cntFlag nbr b n) + 1 := by
        omega
      rw [hf, hlen, List.range_succ]
      simp [hps]
    · have hflt : List.filter (fun i => decide (mergedFlag nbr i = 0)) [b + n]
          = [] := by
        simp [hf]
      rw [hflt]
      have hf1 : mergedFlag nbr (b + n) = 1 := by
        have := mergedFlag_le_one nbr (b + n)
        omega
      have hcle := cntFlag_le nbr b n
      have hlen : n + 1 - (cntFlag nbr b n + 1) = n - cntFlag nbr b n := by
        omega
      rw [hf1, hlen]
      simp

/-- Ranks of the owner nodes (`psum i - 1`, the exclusive pair rank) are
exactly `0, 1, …, cntFlag n - 1` in index order. -/
theorem rank_map_owners (nbr : ℕ → ℕ) (b : ℕ) : ∀ n,
    ((List.range' b n).filter (fun i => mergedFlag nbr i = 1)).map
      (fun i => psum nbr b i - 1) = List.range (cntFlag nbr b n) := by
  intro n
  induction n with
  | zero => rfl
  | succ n ih =>
    rw [List.range'_1_concat, List.filter_append, List.map_append, ih,
      cntFlag_succ]
    by_cases hf : mergedFlag nbr (b + n) = 1
    · have hflt : List.filter (fun i => decide (mergedFlag nbr i = 1)) [b + n]
          = [b + n] := by
        simp [hf]
      rw [hflt]
      have hps : psum nbr b (b + n) = cntFlag nbr b n + 1 := by
        rw [psum_eq nbr b (b + n) (by omega)]
        have : b + n - b = n := by omega
        rw [this, hf]
      rw [hf, List.range_succ]
      simp [hps]
    · have hflt : List.filter (fun i => decide (mergedFlag nbr i = 1)) [b + n]
          = [] := by
        simp [hf]
      rw [hflt]
      have hf0 : mergedFlag nbr (b + n) = 0 := by
        have := mergedFlag_le_one nbr (b + n)
        omega
      rw [hf0]
      simp

/-- Non-owner ranks are in range. -/
theorem nonOwner_rank_lt (nbr : ℕ → ℕ) (b e i : ℕ) (h1 : b ≤ i) (h2 : i < e)
    (hf : mergedFlag nbr i = 0) :
    i - b - psum nbr b i < (e - b) - cntFlag nbr b (e - b) := by
  have hmem : i ∈ (List.range' b (e - b)).filter
      (fun i => mergedFlag nbr i = 0) := by
    rw [List.mem_filter]
    constructor
    · rw [List.mem_range'_1]; omega
    · simp [hf]
  have hmap : i - b - psum nbr b i ∈
      List.range ((e - b) - cntFlag nbr b (e - b)) := by
    rw [← rank_map_nonOwners nbr b (e - b)]
    exact List.mem_map_of_mem _ hmem
  exact List.mem_range.mp hmap

/-- Non-owner ranks are injective. -/
theorem nonOwner_rank_inj (nbr : ℕ → ℕ) (b e i i' : ℕ)
    (h1 : b ≤ i) (h2 : i < e) (hf : mergedFlag nbr i = 0)
    (h1' : b ≤ i') (h2' : i' < e) (hf' : mergedFlag nbr i' = 0)
    (heq : i - b - psum nbr b i = i' - b - psum nbr b i') : i = i' := by
  have hnodup : (((List.range' b (e - b)).filter
      (fun i => mergedFlag nbr i = 0)).map
      (fun i => i - b - psum nbr b i)).Nodup := by
    rw [rank_map_nonOwners nbr b (e - b)]
    exact List.nodup_range _
  have hmem : ∀ k, b ≤ k → k < e → mergedFlag nbr k = 0 →
      k ∈ (List.range' b (e - b)).filter (fun i => mergedFlag nbr i = 0) := by
    intro k hk1 hk2 hk3
    rw [List.mem_filter]
    constructor
    · rw [List.mem_range'_1]; omega
    · simp [hk3]
  exact List.inj_on_of_nodup_map hnodup (hmem i h1 h2 hf)
    (hmem i' h1' h2' hf') heq

/-- Every slot of `[0, (e-b) - cnt)` is the rank of some non-owner. -/
theorem nonOwner_rank_surj (nbr : ℕ → ℕ) (b e y : ℕ)
    (hy : y < (e - b) - cntFlag nbr b (e - b)) :
    ∃ i, b ≤ i ∧ i < e ∧ mergedFlag nbr i = 0 ∧ i - b - psum nbr b i = y := by
  have hmem : y ∈ List.range ((e - b) - cntFlag nbr b (e - b)) :=
    List.mem_range.mpr hy
  rw [← rank_map_nonOwners nbr b (e - b)] at hmem
  obtain ⟨i, hi, hr⟩ := List.mem_map.mp hmem
  rw [List.mem_filter] at hi
  obtain ⟨hir, hif⟩ := hi
  rw [List.mem_range'_1] at hir
  refine ⟨i, by omega, by omega, by simpa using hif, hr⟩

/-- Owner pair-ranks are in range. -/
theorem owner_rank_lt (nbr : ℕ → ℕ) (b e i : ℕ) (h1 : b ≤ i) (h2 : i < e)
    (hf : mergedFlag nbr i = 1) :
    psum nbr b i - 1 < cntFlag nbr b (e - b) := by
  have hmem : i ∈ (List.range' b (e - b)).filter
      (fun i => mergedFlag nbr i = 1) := by
    rw [List.mem_filter]
    constructor
    · rw [List.mem_range'_1]; omega
    · simp [hf]
  have hmap : psum nbr b i - 1 ∈ List.range (cntFlag nbr b (e - b)) := by
    rw [← rank_map_owners nbr b (e - b)]
    exact List.mem_map_of_mem _ hmem
  exact List.mem_range.mp hmap

/-- Owner pair-ranks are injective. -/
theorem owner_rank_inj (nbr : ℕ → ℕ) (b e i i' : ℕ)
    (h1 : b ≤ i) (h2 : i < e) (hf : mergedFlag nbr i = 1)
    (h1' : b ≤ i') (h2' : i' < e) (hf' : mergedFlag nbr i' = 1)
    (heq : psum nbr b i - 1 = psum nbr b i' - 1) : i = i' := by
  have hnodup : (((List.range' b (e - b)).filter
      (fun i => mergedFlag nbr i = 1)).map
      (fun i => psum nbr b i - 1)).Nodup := by
    rw [rank_map_owners nbr b (e - b)]
    exact List.nodup_range _
  have hmem : ∀ k, b ≤ k → k < e → mergedFlag nbr k = 1 →
      k ∈ (List.range' b (e - b)).filter (fun i => mergedFlag nbr i = 1) := by
    intro k hk1 hk2 hk3
    rw [List.mem_filter]
    constructor
    · rw [List.mem_range'_1]; omega
    · simp [hk3]
  exact List.inj_on_of_nodup_map hnodup (hmem i h1 h2 hf)
    (hmem i' h1' h2' hf') heq

/-- Every pair rank in `[0, cnt)` belongs to some owner. -/
theorem owner_rank_surj (nbr : ℕ → ℕ) (b e y : ℕ)
    (hy : y < cntFlag nbr b (e - b)) :
    ∃ i, b ≤ i ∧ i < e ∧ mergedFlag nbr i = 1 ∧ psum nbr b i - 1 = y := by
  have hmem : y ∈ List.range (cntFlag nbr b (e - b)) := List.mem_range.mpr hy
  rw [← rank_map_owners nbr b (e - b)] at hmem
  obtain ⟨i, hi, hr⟩ := List.mem_map.mp hmem
  rw [List.mem_filter] at hi
  obtain ⟨hir, hif⟩ := hi
  rw [List.mem_range'_1] at hir
  refine ⟨i, by omega, by omega, by simpa using hif, hr⟩

/-- An owner's inclusive prefix value is positive. -/
theorem owner_psum_pos (nbr : ℕ → ℕ) (b i : ℕ) (h1 : b ≤ i)
    (hf : mergedFlag nbr i = 1) : 1 ≤ psum nbr b i := by
  rw [psum_eq nbr b i h1, hf]
  omega

/-- `cntFlag` counts the owners. -/
theorem cntFlag_eq_length (nbr : ℕ → ℕ) (b n : ℕ) :
    cntFlag nbr b n = ((List.range' b n).filter
      (fun i => mergedFlag nbr i = 1)).length := by
  have := congrArg List.length (rank_map_owners nbr b n)
  simpa using this.symm

/-- If some window node carries flag 1 the merged count is positive. -/
theorem cntFlag_pos (nbr : ℕ → ℕ) (b e p : ℕ) (h1 : b ≤ p) (h2 : p < e)
    (hf : mergedFlag nbr p = 1) : 1 ≤ cntFlag nbr b (e - b) := by
  rw [cntFlag_eq_length]
  have hmem : p ∈ (List.range' b (e - b)).filter
      (fun i => mergedFlag nbr i = 1) := by
    rw [List.mem_filter]
    constructor
    · rw [List.mem_range'_1]; omega
    · simp [hf]
  exact List.length_pos.mpr (fun hnil => by simp [hnil] at hmem)

/-- Each mutual pair occupies two window slots, so twice the merged count is
bounded by the window size. -/
theorem two_mul_cntFlag_le (nbr : ℕ → ℕ) (b e : ℕ)
    (hnbr : ∀ i, b ≤ i → i < e → b ≤ nbr i ∧ nbr i < e) :
    2 * cntFlag nbr b (e - b) ≤ e - b := by
  classical
  set O := (Finset.Ico b e).filter (fun i => mergedFlag nbr i = 1) with hO
  set P := (Finset.Ico b e).filter (fun i => mergedFlag nbr i = 0) with hP
  -- cntFlag equals the cardinality of O
  have hcard : ∀ n, cntFlag nbr b n =
      ((Finset.Ico b (b + n)).filter (fun i => mergedFlag nbr i = 1)).card := by
    intro n
    induction n with
    | zero => simp [cntFlag_zero]
    | succ n ih =>
      rw [cntFlag_succ, ih]
      have hins : Finset.Ico b (b + (n + 1)) =
          insert (b + n) (Finset.Ico b (b + n)) := by
        have : b + (n + 1) = (b + n) + 1 := by omega
        rw [this]
        exact Nat.Ico_succ_right_eq_insert_Ico (by omega)
      rw [hins, Finset.filter_insert]
      by_cases hf : mergedFlag nbr (b + n) = 1
      · rw [if_pos (by simpa using hf)]
        rw [Finset.card_insert_of_not_mem (by simp)]
        omega
      · rw [if_neg (by simpa using hf)]
        have hf0 : mergedFlag nbr (b + n) = 0 := by
          have := mergedFlag_le_one nbr (b + n)
          omega
        omega
  have hcO : cntFlag nbr b (e - b) = O.card := by
    rw [hcard (e - b), hO]
    by_cases hbe : b ≤ e
    · have : b + (e - b) = e := by omega
      rw [this]
    · have h1 : e - b = 0 := by omega
      have h2 : Finset.Ico b e = ∅ := by
        rw [Finset.Ico_eq_empty_iff]
        omega
      rw [h1, h2]
      simp
  -- every owner's partner is a distinct non-owner
  have hmaps : ∀ i ∈ O, nbr i ∈ P := by
    intro i hi
    rw [hO, Finset.mem_filter, Finset.mem_Ico] at hi
    obtain ⟨⟨hbi, hie⟩, hfi⟩ := hi
    have hfi2 : i < nbr i ∧ nbr (nbr i) = i := by
      by_contra hc
      simp only [mergedFlag, if_neg hc] at hfi
      exact absurd hfi one_ne_zero.symm
    obtain ⟨hij, hmut⟩ := hfi2
    have hw := hnbr i hbi hie
    rw [hP, Finset.mem_filter, Finset.mem_Ico]
    refine ⟨⟨hw.1, hw.2⟩, ?_⟩
    unfold mergedFlag
    rw [if_neg]
    rw [hmut]
    omega
  have hinj : ∀ i ∈ O, ∀ i' ∈ O, nbr i = nbr i' → i = i' := by
    intro i hi i' hi' heq
    rw [hO, Finset.mem_filter] at hi hi'
    have hmi : nbr (nbr i) = i := by
      rcases hi with ⟨-, hfi⟩
      by_contra hc
      unfold mergedFlag at hfi
      rw [if_neg (by tauto)] at hfi
      exact absurd hfi one_ne_zero.symm
    have hmi' : nbr (nbr i') = i' := by
      rcases hi' with ⟨-, hfi'⟩
      by_contra hc
      unfold mergedFlag at hfi'
      rw [if_neg (by tauto)] at hfi'
      exact absurd hfi' one_ne_zero.symm
    rw [← hmi, heq, hmi']
  have himg : (O.image nbr).card = O.card := Finset.card_image_of_injOn hinj
  have hsub : O.image nbr ⊆ P := by
    intro x hx
    obtain ⟨i, hi, rfl⟩ := Finset.mem_image.mp hx
    exact hmaps i hi
  have hPO : O.card ≤ P.card := himg ▸ Finset.card_le_card hsub
  have hdisj : Disjoint O P := by
    rw [Finset.disjoint_left]
    intro x hxO hxP
    rw [hO, Finset.mem_filter] at hxO
    rw [hP, Finset.mem_filter] at hxP
    omega
  have hunion : O.card + P.card ≤ (Finset.Ico b e).card := by
    rw [← Finset.card_union_of_disjoint hdisj]
    apply Finset.card_le_card
    intro x hx
    rcases Finset.mem_union.mp hx with h | h
    · exact Finset.mem_of_mem_filter x h
    · exact Finset.mem_of_mem_filter x h
  rw [Nat.card_Ico] at hunion
  omega

/-!
## One clustering round: compaction and the output writes

Translation of phase 3 of `cluster` (lines 286–306) and the propagation
phase (lines 309–311).  For `i` in the window with `j = neighbors[i]`:
if `neighbors[j] == i` and `i < j`, node `i` writes the new parent into
`output[unmerged_begin + j - begin - merged_index[j]]` (volume
`input[j] ∪ input[i]`, `is_leaf = false`, `first_child_or_primitive =
children_begin + (merged_index[i] - 1) * 2`) and copies the two children to
`first_child` and `first_child + 1`; if `neighbors[j] == i` and `i > j`
it writes nothing; otherwise it copies itself to
`output[unmerged_begin + i - begin - merged_index[i]]`.  The parent write
only sets the bounding volume, leaf bit and child index, so the slot's
`primitive_count` and `origin` keep whatever the output buffer held.
Finally `output[i] = input[i]` for `i` in `[end, previous_end)`.
-/

/-- `merged_count = merged_index[end - 1]`. -/
def mergedCountOf (nbr : ℕ → ℕ) (b e : ℕ) : ℕ := psum nbr b (e - 1)

/-- `unmerged_count = end - begin - merged_count`. -/
def unmergedCountOf (nbr : ℕ → ℕ) (b e : ℕ) : ℕ :=
  e - b - mergedCountOf nbr b e

/-- `children_count = merged_count * 2`. -/
def childrenCountOf (nbr : ℕ → ℕ) (b e : ℕ) : ℕ := mergedCountOf nbr b e * 2

/-- `children_begin = end - children_count`. -/
def childrenBeginOf (nbr : ℕ → ℕ) (b e : ℕ) : ℕ :=
  e - childrenCountOf nbr b e

/-- `unmerged_begin = end - (children_count + unmerged_count)`. -/
def unmergedBeginOf (nbr : ℕ → ℕ) (b e : ℕ) : ℕ :=
  e - (childrenCountOf nbr b e + unmergedCountOf nbr b e)

/-- Output slot `unmerged_begin + i - begin - merged_index[i]` (receives
survivors, and the new parent when `i` is the higher member of a pair). -/
def destSurv (nbr : ℕ → ℕ) (b ub i : ℕ) : ℕ := ub + i - b - psum nbr b i

/-- Child slot `children_begin + (merged_index[i] - 1) * 2` of owner `i`. -/
def destChild (nbr : ℕ → ℕ) (b cb i : ℕ) : ℕ :=
  cb + (psum nbr b i - 1) * 2

/-- The writes performed for source node `i` of the window. -/
def roundStep {V : Type} (ops : VolOps V) (nbr : ℕ → ℕ) (b ub cb : ℕ)
    (input : ℕ → BvhNode V) (f : ℕ → BvhNode V) (i : ℕ) : ℕ → BvhNode V :=
  let j := nbr i
  if nbr j = i then
    if i < j then
      let p := destSurv nbr b ub j
      let fc := destChild nbr b cb i
      let parent : BvhNode V :=
        { f p with volume := ops.extend (input j).volume (input i).volume,
                   is_leaf := false,
                   first_child_or_primitive := fc }
      Function.update (Function.update (Function.update f p parent)
        fc (input i)) (fc + 1) (input j)
    else f
  else
    Function.update f (destSurv nbr b ub i) (input i)

/-- The output array of one round (phase 3 over the window, then the
propagation of `[end, previous_end)`; all other entries keep the output
buffer's previous contents). -/
def clusterOut {V : Type} (ops : VolOps V) (nbr : ℕ → ℕ)
    (input out0 : ℕ → BvhNode V) (b e pe : ℕ) : ℕ → BvhNode V :=
  let g := (List.range' b (e - b)).foldl
    (roundStep ops nbr b (unmergedBeginOf nbr b e) (childrenBeginOf nbr b e)
      input) out0
  (List.range' e (pe - e)).foldl (fun f i => Function.update f i (input i)) g

/-- `(next_begin, next_end) = (unmerged_begin, children_begin)`. -/
def clusterNext (nbr : ℕ → ℕ) (b e : ℕ) : ℕ × ℕ :=
  (unmergedBeginOf nbr b e, childrenBeginOf nbr b e)

/-- The standing hypotheses of one round: every window node's neighbor is a
window node other than itself (guaranteed by the search, a fatal assertion
otherwise), the merged count does not exceed `begin` (true in the builds,
where the arena below the window has exactly that much room), and the
window is nonempty. -/
def RoundHyp (nbr : ℕ → ℕ) (b e : ℕ) : Prop :=
  (∀ i, b ≤ i → i < e → b ≤ nbr i ∧ nbr i < e ∧ nbr i ≠ i) ∧
  mergedCountOf nbr b e ≤ b ∧ b < e

theorem mergedCountOf_eq_cnt (nbr : ℕ → ℕ) (b e : ℕ) (h : b < e) :
    mergedCountOf nbr b e = cntFlag nbr b (e - b) :=
  psum_last nbr b e h

theorem mergedCountOf_le_size (nbr : ℕ → ℕ) (b e : ℕ) (h : b < e) :
    mergedCountOf nbr b e ≤ e - b := by
  rw [mergedCountOf_eq_cnt nbr b e h]
  exact cntFlag_le nbr b (e - b)

theorem unmergedBeginOf_eq (nbr : ℕ → ℕ) (b e : ℕ)
    (hm : mergedCountOf nbr b e ≤ b) (hbe : b < e) :
    unmergedBeginOf nbr b e = b - mergedCountOf nbr b e := by
  unfold unmergedBeginOf childrenCountOf unmergedCountOf
  have := mergedCountOf_le_size nbr b e hbe
  omega

theorem two_mul_mergedCountOf_le (nbr : ℕ → ℕ) (b e : ℕ)
    (hnbr : ∀ i, b ≤ i → i < e → b ≤ nbr i ∧ nbr i < e) (hbe : b < e) :
    2 * mergedCountOf nbr b e ≤ e - b := by
  rw [mergedCountOf_eq_cnt nbr b e hbe]
  exact two_mul_cntFlag_le nbr b e hnbr

/-- For non-owners the survivor slot is `unmerged_begin` plus the non-owner
rank (no `ℕ`-subtraction truncation). -/
theorem destSurv_eq_add (nbr : ℕ → ℕ) (b ub i : ℕ) (h : b ≤ i)
    (hf : mergedFlag nbr i = 0) :
    destSurv nbr b ub i = ub + (i - b - psum nbr b i) := by
  unfold destSurv
  have h1 : psum nbr b i ≤ i - b := by
    rw [psum_eq nbr b i h, hf]
    have := cntFlag_le nbr b (i - b)
    omega
  omega

/-- Survivor slots are injective over the non-owners of a window. -/
theorem destSurv_inj (nbr : ℕ → ℕ) (b e ub k k' : ℕ)
    (h1 : b ≤ k) (h2 : k < e) (hf : mergedFlag nbr k = 0)
    (h1' : b ≤ k') (h2' : k' < e) (hf' : mergedFlag nbr k' = 0)
    (heq : destSurv nbr b ub k = destSurv nbr b ub k') : k = k' := by
  rw [destSurv_eq_add nbr b ub k h1 hf,
    destSurv_eq_add nbr b ub k' h1' hf'] at heq
  exact nonOwner_rank_inj nbr b e k k' h1 h2 hf h1' h2' hf' (by omega)

/-- Survivor slots land in `[unmerged_begin, children_begin)`. -/
theorem destSurv_range (nbr : ℕ → ℕ) (b e k : ℕ)
    (hyp : RoundHyp nbr b e)
    (h1 : b ≤ k) (h2 : k < e) (hf : mergedFlag nbr k = 0) :
    unmergedBeginOf nbr b e ≤ destSurv nbr b (unmergedBeginOf nbr b e) k ∧
    destSurv nbr b (unmergedBeginOf nbr b e) k < childrenBeginOf nbr b e := by
  obtain ⟨hnbr, hmb, hbe⟩ := hyp
  have hub := unmergedBeginOf_eq nbr b e hmb hbe
  have h2m := two_mul_mergedCountOf_le nbr b e
    (fun i hi1 hi2 => ⟨(hnbr i hi1 hi2).1, (hnbr i hi1 hi2).2.1⟩) hbe
  have hrank := nonOwner_rank_lt nbr b e k h1 h2 hf
  have hmcnt := mergedCountOf_eq_cnt nbr b e hbe
  have hle := mergedCountOf_le_size nbr b e hbe
  rw [destSurv_eq_add nbr b _ k h1 hf]
  unfold childrenBeginOf childrenCountOf
  constructor
  · omega
  · omega

/-- Child slots are `children_begin + 2·(pair rank)` and land in
`[children_begin, end)`, the second child strictly below `end`. -/
theorem destChild_range (nbr : ℕ → ℕ) (b e k : ℕ)
    (hyp : RoundHyp nbr b e)
    (h1 : b ≤ k) (h2 : k < e) (hf : mergedFlag nbr k = 1) :
    childrenBeginOf nbr b e ≤ destChild nbr b (childrenBeginOf nbr b e) k ∧
    destChild nbr b (childrenBeginOf nbr b e) k + 1 < e := by
  obtain ⟨hnbr, hmb, hbe⟩ := hyp
  have h2m := two_mul_mergedCountOf_le nbr b e
    (fun i hi1 hi2 => ⟨(hnbr i hi1 hi2).1, (hnbr i hi1 hi2).2.1⟩) hbe
  have hrank := owner_rank_lt nbr b e k h1 h2 hf
  have hmcnt := mergedCountOf_eq_cnt nbr b e hbe
  have hpos := owner_psum_pos nbr b k h1 hf
  unfold destChild childrenBeginOf childrenCountOf
  constructor
  · omega
  · omega

theorem mergedFlag_eq_one_iff (nbr : ℕ → ℕ) (i : ℕ) :
    mergedFlag nbr i = 1 ↔ (i < nbr i ∧ nbr (nbr i) = i) := by
  unfold mergedFlag
  split
  · next h => simpa using h
  · next h => simpa using h

theorem survivor_flag_zero (nbr : ℕ → ℕ) (i : ℕ) (h : nbr (nbr i) ≠ i) :
    mergedFlag nbr i = 0 := by
  unfold mergedFlag
  rw [if_neg]
  intro hc
  exact h hc.2

theorem higher_flag_zero (nbr : ℕ → ℕ) (i : ℕ) (h : ¬ i < nbr i) :
    mergedFlag nbr i = 0 := by
  unfold mergedFlag
  rw [if_neg]
  intro hc
  exact h hc.1

theorem partner_flag_zero (nbr : ℕ → ℕ) (i : ℕ) (hmut : nbr (nbr i) = i)
    (hij : i < nbr i) : mergedFlag nbr (nbr i) = 0 := by
  apply higher_flag_zero
  rw [hmut]
  omega

/-- What source `i`'s writes avoid: if `x` is none of `i`'s target slots,
the step leaves `x` unchanged. -/
theorem roundStep_preserve {V : Type} (ops : VolOps V) (nbr : ℕ → ℕ)
    (b ub cb : ℕ) (input f : ℕ → BvhNode V) (i x : ℕ)
    (h1 : nbr (nbr i) = i → i < nbr i →
      x ≠ destSurv nbr b ub (nbr i) ∧ x ≠ destChild nbr b cb i ∧
        x ≠ destChild nbr b cb i + 1)
    (h2 : nbr (nbr i) ≠ i → x ≠ destSurv nbr b ub i) :
    roundStep ops nbr b ub cb input f i x = f x := by
  unfold roundStep
  by_cases hmut : nbr (nbr i) = i
  · rw [if_pos hmut]
    by_cases hij : i < nbr i
    · rw [if_pos hij]
      obtain ⟨ha, hb2, hc2⟩ := h1 hmut hij
      rw [Function.update_noteq hc2, Function.update_noteq hb2,
        Function.update_noteq ha]
    · rw [if_neg hij]
  · rw [if_neg hmut]
    rw [Function.update_noteq (h2 hmut)]

/-- Fold version of the preservation lemma. -/
theorem roundFold_preserve {V : Type} (ops : VolOps V) (nbr : ℕ → ℕ)
    (b ub cb : ℕ) (input : ℕ → BvhNode V) (l : List ℕ)
    (f0 : ℕ → BvhNode V) (x : ℕ)
    (h : ∀ i ∈ l,
      (nbr (nbr i) = i → i < nbr i →
        x ≠ destSurv nbr b ub (nbr i) ∧ x ≠ destChild nbr b cb i ∧
          x ≠ destChild nbr b cb i + 1) ∧
      (nbr (nbr i) ≠ i → x ≠ destSurv nbr b ub i)) :
    (l.foldl (roundStep ops nbr b ub cb input) f0) x = f0 x := by
  induction l generalizing f0 with
  | nil => rfl
  | cons y t ih =>
    rw [List.foldl_cons, ih _ (fun i hi => h i (List.mem_cons_of_mem y hi))]
    obtain ⟨hy1, hy2⟩ := h y (List.mem_cons_self y t)
    exact roundStep_preserve ops nbr b ub cb input f0 y x hy1 hy2

/-- Splitting `[b, b+n)` at an interior point. -/
theorem range'_split (b n i : ℕ) (h1 : b ≤ i) (h2 : i < b + n) :
    List.range' b n = List.range' b (i - b) ++ i ::
      List.range' (i + 1) (b + n - i - 1) := by
  have hap : List.range' b (i - b) ++ List.range' (b + (i - b)) (n - (i - b)) =
      List.range' b ((n - (i - b)) + (i - b)) := by
    simpa using List.range'_append b (i - b) (n - (i - b)) 1
  have h3 : b + (i - b) = i := by omega
  have h4 : (n - (i - b)) + (i - b) = n := by omega
  rw [h3, h4] at hap
  rw [← hap]
  have h5 : n - (i - b) = (b + n - i - 1) + 1 := by omega
  rw [h5]
  rfl

/-- Copy-phase preservation: indices outside `[s, s+n)` are untouched. -/
theorem copyFold_preserve {V : Type} (input : ℕ → BvhNode V) (s n : ℕ)
    (f0 : ℕ → BvhNode V) (x : ℕ) (hx : x < s ∨ s + n ≤ x) :
    ((List.range' s n).foldl (fun f i => Function.update f i (input i)) f0) x
      = f0 x := by
  induction n generalizing f0 s with
  | zero => rfl
  | succ n ih =>
    rw [List.range'_succ, List.foldl_cons]
    rw [ih (s + 1) _ (by omega)]
    exact Function.update_noteq (by omega) _ _

/-- Copy-phase lookup: each propagated index receives `input` at itself. -/
theorem copyFold_lookup {V : Type} (input : ℕ → BvhNode V) (s n : ℕ)
    (f0 : ℕ → BvhNode V) (x : ℕ) (hx1 : s ≤ x) (hx2 : x < s + n) :
    ((List.range' s n).foldl (fun f i => Function.update f i (input i)) f0) x
      = input x := by
  induction n generalizing f0 s with
  | zero => omega
  | succ n ih =>
    rw [List.range'_succ, List.foldl_cons]
    by_cases hxs : x = s
    · subst hxs
      rw [copyFold_preserve input (x + 1) n _ x (Or.inl (by omega))]
      exact Function.update_same x (input x) f0
    · exact ih (s + 1) _ (by omega) (by omega)

/-- No window node other than survivor-slot `k`'s writer touches that slot. -/
theorem roundFold_preserve_survSlot {V : Type} (ops : VolOps V)
    (nbr : ℕ → ℕ) (input : ℕ → BvhNode V) (b e : ℕ)
    (hyp : RoundHyp nbr b e) (k : ℕ) (h1 : b ≤ k) (h2 : k < e)
    (hfk : mergedFlag nbr k = 0) (l : List ℕ)
    (hl : ∀ i ∈ l, b ≤ i ∧ i < e ∧ (nbr (nbr k) = k → i ≠ nbr k) ∧
      (nbr (nbr k) ≠ k → i ≠ k)) (f0 : ℕ → BvhNode V) :
    (l.foldl (roundStep ops nbr b (unmergedBeginOf nbr b e)
      (childrenBeginOf nbr b e) input) f0)
      (destSurv nbr b (unmergedBeginOf nbr b e) k) =
    f0 (destSurv nbr b (unmergedBeginOf nbr b e) k) := by
  obtain ⟨hnbr, hmb, hbe⟩ := hyp
  have hxr := destSurv_range nbr b e k ⟨hnbr, hmb, hbe⟩ h1 h2 hfk
  apply roundFold_preserve
  intro i hi
  obtain ⟨hi1, hi2, hw1, hw2⟩ := hl i hi
  constructor
  · intro hmut hij
    have hjw := hnbr i hi1 hi2
    have hfj : mergedFlag nbr (nbr i) = 0 := partner_flag_zero nbr i hmut hij
    have hflag1 : mergedFlag nbr i = 1 :=
      (mergedFlag_eq_one_iff nbr i).mpr ⟨hij, hmut⟩
    have hcr := destChild_range nbr b e i ⟨hnbr, hmb, hbe⟩ hi1 hi2 hflag1
    refine ⟨?_, by omega, by omega⟩
    intro heq
    have hkey : k = nbr i := destSurv_inj nbr b e _ k (nbr i) h1 h2 hfk
      hjw.1 hjw.2.1 hfj heq
    have hkm : nbr (nbr k) = k := by
      rw [hkey, hmut, ← hkey]
    exact (hw1 hkm) (by rw [hkey, hmut])
  · intro hns heq
    have hfi : mergedFlag nbr i = 0 := survivor_flag_zero nbr i hns
    have hkey : k = i := destSurv_inj nbr b e _ k i h1 h2 hfk hi1 hi2 hfi heq
    have : nbr (nbr k) ≠ k := by rw [hkey]; exact fun hc => hns hc
    exact (hw2 this) hkey.symm

/-- No window node other than owner `k` touches `k`'s two child slots. -/
theorem roundFold_preserve_childSlot {V : Type} (ops : VolOps V)
    (nbr : ℕ → ℕ) (input : ℕ → BvhNode V) (b e : ℕ)
    (hyp : RoundHyp nbr b e) (k : ℕ) (h1 : b ≤ k) (h2 : k < e)
    (hfk : mergedFlag nbr k = 1) (x : ℕ)
    (hx : x = destChild nbr b (childrenBeginOf nbr b e) k ∨
      x = destChild nbr b (childrenBeginOf nbr b e) k + 1) (l : List ℕ)
    (hl : ∀ i ∈ l, b ≤ i ∧ i < e ∧ i ≠ k) (f0 : ℕ → BvhNode V) :
    (l.foldl (roundStep ops nbr b (unmergedBeginOf nbr b e)
      (childrenBeginOf nbr b e) input) f0) x = f0 x := by
  obtain ⟨hnbr, hmb, hbe⟩ := hyp
  have hkr := destChild_range nbr b e k ⟨hnbr, hmb, hbe⟩ h1 h2 hfk
  apply roundFold_preserve
  intro i hi
  obtain ⟨hi1, hi2, hik⟩ := hl i hi
  constructor
  · intro hmut hij
    have hjw := hnbr i hi1 hi2
    have hfj : mergedFlag nbr (nbr i) = 0 := partner_flag_zero nbr i hmut hij
    have hflag1 : mergedFlag nbr i = 1 :=
      (mergedFlag_eq_one_iff nbr i).mpr ⟨hij, hmut⟩
    have hjr := destSurv_range nbr b e (nbr i) ⟨hnbr, hmb, hbe⟩
      hjw.1 hjw.2.1 hfj
    have hranks : psum nbr b i - 1 ≠ psum nbr b k - 1 := by
      intro hc
      exact hik (owner_rank_inj nbr b e i k hi1 hi2 hflag1 h1 h2 hfk hc)
    have hir := destChild_range nbr b e i ⟨hnbr, hmb, hbe⟩ hi1 hi2 hflag1
    refine ⟨by omega, ?_, ?_⟩
    · unfold destChild at hx ⊢
      omega
    · unfold destChild at hx ⊢
      omega
  · intro hns
    have hfi : mergedFlag nbr i = 0 := survivor_flag_zero nbr i hns
    have hir := destSurv_range nbr b e i ⟨hnbr, hmb, hbe⟩ hi1 hi2 hfi
    omega

/-- Survivor lookup: a node without a mutual match is copied unchanged to
`unmerged_begin + i - begin - merged_index[i]`. -/
theorem clusterOut_surv {V : Type} (ops : VolOps V) (nbr : ℕ → ℕ)
    (input out0 : ℕ → BvhNode V) (b e pe : ℕ) (hyp : RoundHyp nbr b e)
    (hpe : e ≤ pe) (k : ℕ) (h1 : b ≤ k) (h2 : k < e)
    (hsurv : nbr (nbr k) ≠ k) :
    clusterOut ops nbr input out0 b e pe
      (destSurv nbr b (unmergedBeginOf nbr b e) k) = input k := by
  obtain ⟨hnbr, hmb, hbe⟩ := hyp
  have hfk : mergedFlag nbr k = 0 := survivor_flag_zero nbr k hsurv
  have hxr := destSurv_range nbr b e k ⟨hnbr, hmb, hbe⟩ h1 h2 hfk
  have hcbe : childrenBeginOf nbr b e ≤ e := by
    unfold childrenBeginOf
    omega
  unfold clusterOut
  rw [copyFold_preserve input e (pe - e) _ _ (Or.inl (by omega))]
  rw [range'_split b (e - b) k h1 (by omega), List.foldl_append,
    List.foldl_cons]
  rw [roundFold_preserve_survSlot ops nbr input b e ⟨hnbr, hmb, hbe⟩ k h1 h2
    hfk _ ?hl2 _]
  case hl2 =>
    intro i hi
    rw [List.mem_range'_1] at hi
    refine ⟨by omega, by omega, fun hc => absurd hc hsurv, fun _ => by omega⟩
  unfold roundStep
  rw [if_neg hsurv]
  exact Function.update_same _ _ _

/-- Parent lookup: for a mutual pair `i < j = neighbors[i]`, the slot
`unmerged_begin + j - begin - merged_index[j]` receives the new parent:
volume `input[j] ∪ input[i]`, `is_leaf = false`, `first_child` pointing at
the copied children, and the remaining fields (`primitive_count`, `origin`)
left as they were in the output buffer. -/
theorem clusterOut_parent {V : Type} (ops : VolOps V) (nbr : ℕ → ℕ)
    (input out0 : ℕ → BvhNode V) (b e pe : ℕ) (hyp : RoundHyp nbr b e)
    (hpe : e ≤ pe) (i : ℕ) (h1 : b ≤ i) (h2 : i < e)
    (hmut : nbr (nbr i) = i) (hij : i < nbr i) :
    clusterOut ops nbr input out0 b e pe
      (destSurv nbr b (unmergedBeginOf nbr b e) (nbr i)) =
    { out0 (destSurv nbr b (unmergedBeginOf nbr b e) (nbr i)) with
        volume := ops.extend (input (nbr i)).volume (input i).volume,
        is_leaf := false,
        first_child_or_primitive :=
          destChild nbr b (childrenBeginOf nbr b e) i } := by
  obtain ⟨hnbr, hmb, hbe⟩ := hyp
  have hjw := hnbr i h1 h2
  have hfj : mergedFlag nbr (nbr i) = 0 := partner_flag_zero nbr i hmut hij
  have hflag1 : mergedFlag nbr i = 1 :=
    (mergedFlag_eq_one_iff nbr i).mpr ⟨hij, hmut⟩
  have hxr := destSurv_range nbr b e (nbr i) ⟨hnbr, hmb, hbe⟩
    hjw.1 hjw.2.1 hfj
  have hcr := destChild_range nbr b e i ⟨hnbr, hmb, hbe⟩ h1 h2 hflag1
  have hcbe : childrenBeginOf nbr b e ≤ e := by
    unfold childrenBeginOf
    omega
  have hmutj : nbr (nbr (nbr i)) = nbr i := by rw [hmut]
  unfold clusterOut
  rw [copyFold_preserve input e (pe - e) _ _ (Or.inl (by omega))]
  rw [range'_split b (e - b) i h1 (by omega), List.foldl_append,
    List.foldl_cons]
  rw [roundFold_preserve_survSlot ops nbr input b e ⟨hnbr, hmb, hbe⟩ (nbr i)
    hjw.1 hjw.2.1 hfj _ ?hl2 _]
  case hl2 =>
    intro i2 hi2
    rw [List.mem_range'_1] at hi2
    refine ⟨by omega, by omega, fun _ => ?_, fun hc => absurd hmutj hc⟩
    rw [hmut]
    omega
  set g := (List.range' b (i - b)).foldl
    (roundStep ops nbr b (unmergedBeginOf nbr b e)
      (childrenBeginOf nbr b e) input) out0 with hgdef
  have hbase : g (destSurv nbr b (unmergedBeginOf nbr b e) (nbr i)) =
      out0 (destSurv nbr b (unmergedBeginOf nbr b e) (nbr i)) := by
    rw [hgdef]
    rw [roundFold_preserve_survSlot ops nbr input b e ⟨hnbr, hmb, hbe⟩ (nbr i)
      hjw.1 hjw.2.1 hfj _ ?hl1 _]
    case hl1 =>
      intro i2 hi2
      rw [List.mem_range'_1] at hi2
      refine ⟨by omega, by omega, fun _ => ?_, fun hc => absurd hmutj hc⟩
      rw [hmut]
      omega
  unfold roundStep
  rw [if_pos hmut, if_pos hij]
  rw [Function.update_noteq (by omega), Function.update_noteq (by omega),
    Function.update_same]
  rw [hbase]

/-- Children lookup: the two members of a mutual pair are copied unchanged
just below their parent's child pointer. -/
theorem clusterOut_children {V : Type} (ops : VolOps V) (nbr : ℕ → ℕ)
    (input out0 : ℕ → BvhNode V) (b e pe : ℕ) (hyp : RoundHyp nbr b e)
    (hpe : e ≤ pe) (i : ℕ) (h1 : b ≤ i) (h2 : i < e)
    (hmut : nbr (nbr i) = i) (hij : i < nbr i) :
    clusterOut ops nbr input out0 b e pe
      (destChild nbr b (childrenBeginOf nbr b e) i) = input i ∧
    clusterOut ops nbr input out0 b e pe
      (destChild nbr b (childrenBeginOf nbr b e) i + 1) = input (nbr i) := by
  obtain ⟨hnbr, hmb, hbe⟩ := hyp
  have hflag1 : mergedFlag nbr i = 1 :=
    (mergedFlag_eq_one_iff nbr i).mpr ⟨hij, hmut⟩
  have hcr := destChild_range nbr b e i ⟨hnbr, hmb, hbe⟩ h1 h2 hflag1
  constructor
  · unfold clusterOut
    rw [copyFold_preserve input e (pe - e) _ _ (Or.inl (by omega))]
    rw [range'_split b (e - b) i h1 (by omega), List.foldl_append,
      List.foldl_cons]
    rw [roundFold_preserve_childSlot ops nbr input b e ⟨hnbr, hmb, hbe⟩ i h1
      h2 hflag1 _ (Or.inl rfl) _ ?hl2 _]
    case hl2 =>
      intro i2 hi2
      rw [List.mem_range'_1] at hi2
      exact ⟨by omega, by omega, by omega⟩
    unfold roundStep
    rw [if_pos hmut, if_pos hij]
    rw [Function.update_noteq (by omega), Function.update_same]
  · unfold clusterOut
    rw [copyFold_preserve input e (pe - e) _ _ (Or.inl (by omega))]
    rw [range'_split b (e - b) i h1 (by omega), List.foldl_append,
      List.foldl_cons]
    rw [roundFold_preserve_childSlot ops nbr input b e ⟨hnbr, hmb, hbe⟩ i h1
      h2 hflag1 _ (Or.inr rfl) _ ?hl2b _]
    case hl2b =>
      intro i2 hi2
      rw [List.mem_range'_1] at hi2
      exact ⟨by omega, by omega, by omega⟩
    unfold roundStep
    rw [if_pos hmut, if_pos hij]
    rw [Function.update_same]

/-- Propagation lookup: `[end, previous_end)` is copied verbatim. -/
theorem clusterOut_copy {V : Type} (ops : VolOps V) (nbr : ℕ → ℕ)
    (input out0 : ℕ → BvhNode V) (b e pe : ℕ) (x : ℕ)
    (hx1 : e ≤ x) (hx2 : x < pe) :
    clusterOut ops nbr input out0 b e pe x = input x := by
  unfold clusterOut
  exact copyFold_lookup input e (pe - e) _ x hx1 (by omega)

/-- Indices below `unmerged_begin` or at/above `previous_end` keep the
output buffer's previous contents. -/
theorem clusterOut_untouched {V : Type} (ops : VolOps V) (nbr : ℕ → ℕ)
    (input out0 : ℕ → BvhNode V) (b e pe : ℕ) (hyp : RoundHyp nbr b e)
    (hpe : e ≤ pe) (x : ℕ)
    (hx : x < unmergedBeginOf nbr b e ∨ pe ≤ x) :
    clusterOut ops nbr input out0 b e pe x = out0 x := by
  obtain ⟨hnbr, hmb, hbe⟩ := hyp
  have hube : unmergedBeginOf nbr b e ≤ e := by
    unfold unmergedBeginOf
    omega
  have hcbe : childrenBeginOf nbr b e ≤ e := by
    unfold childrenBeginOf
    omega
  unfold clusterOut
  rw [copyFold_preserve input e (pe - e) _ _ (by omega)]
  apply roundFold_preserve
  intro i hi
  rw [List.mem_range'_1] at hi
  constructor
  · intro hmut hij
    have hjw := hnbr i (by omega) (by omega)
    have hfj : mergedFlag nbr (nbr i) = 0 := partner_flag_zero nbr i hmut hij
    have hflag1 : mergedFlag nbr i = 1 :=
      (mergedFlag_eq_one_iff nbr i).mpr ⟨hij, hmut⟩
    have hjr := destSurv_range nbr b e (nbr i) ⟨hnbr, hmb, hbe⟩
      hjw.1 hjw.2.1 hfj
    have hir := destChild_range nbr b e i ⟨hnbr, hmb, hbe⟩
      (by omega) (by omega) hflag1
    have hcbge : unmergedBeginOf nbr b e ≤ childrenBeginOf nbr b e := by
      have := destSurv_range nbr b e (nbr i) ⟨hnbr, hmb, hbe⟩
        hjw.1 hjw.2.1 hfj
      omega
    exact ⟨by omega, by omega, by omega⟩
  · intro hns
    have hfi : mergedFlag nbr i = 0 := survivor_flag_zero nbr i hns
    have hir := destSurv_range nbr b e i ⟨hnbr, hmb, hbe⟩
      (by omega) (by omega) hfi
    omega

/-!
## Build orchestration

All four overloads share the same structure (lines 565–629 for boxes,
510–562 for cylinders, 329–440 for the hybrid): allocate `2P-1` node slots
and a scratch copy (value-initialized), seed one leaf per sorted primitive
at the arena tail, then run rounds on a shrinking window `[begin, end)`
swapping the two buffers, and finally hand the current buffer, the
permutation and `node_count` to the `Bvh`.

The Morton sorter is not part of `src/`.  Modelled from the spec: the
external `PrimitiveSorter` returns an index permutation; it is taken here
as an input `perm` (claims about it carry a bijectivity hypothesis).
-/

/-- The leaf seeded for sorted-rank `i`:
`volume = bboxes[primitive_indices[i]]`, `is_leaf = true`,
`primitive_count = 1`, `first_child_or_primitive = i`. -/
def leafNode {V : Type} (prims : ℕ → V) (perm : ℕ → ℕ) (i : ℕ) : BvhNode V :=
  ⟨prims (perm i), true, 1, i, 0⟩

/-- The node buffer after the leaf-creation loop: leaves at
`[node_count - P, node_count)`, value-initialized elsewhere. -/
def seedNodes {V : Type} (z : V) (prims : ℕ → V) (perm : ℕ → ℕ) (P : ℕ) :
    ℕ → BvhNode V := fun x =>
  if 2 * P - 1 - P ≤ x ∧ x < 2 * P - 1 then
    leafNode prims perm (x - (2 * P - 1 - P))
  else zeroNode V z

/-- The round loop (`while (end - begin > 1)`), with the double-buffer swap
after each round.  `fuel` bounds the number of iterations; the builds call
it with fuel `P`, which the termination argument shows is never exhausted.
Returns the current buffer, the scratch buffer, and `begin`, `end`,
`previous_end`. -/
def buildLoop {V : Type} (ops : VolOps V) (R T : ℕ) :
    ℕ → (ℕ → BvhNode V) → (ℕ → BvhNode V) → ℕ → ℕ → ℕ →
    ((ℕ → BvhNode V) × (ℕ → BvhNode V) × ℕ × ℕ × ℕ)
  | 0, cur, scr, b, e, pe => (cur, scr, b, e, pe)
  | fuel + 1, cur, scr, b, e, pe =>
    if e - b ≤ 1 then (cur, scr, b, e, pe)
    else
      buildLoop ops R T fuel
        (clusterOut ops (nbrPar ops cur R T b e) cur scr b e pe) cur
        (unmergedBeginOf (nbrPar ops cur R T b e) b e)
        (childrenBeginOf (nbrPar ops cur R T b e) b e) e

/-- The result handed to the `Bvh`: node array, primitive permutation and
`node_count`, plus the final active window (for specification purposes). -/
structure BuildResult (V : Type) where
  nodes : ℕ → BvhNode V
  primitive_indices : ℕ → ℕ
  node_count : ℕ
  final_begin : ℕ
  final_end : ℕ

/-- A non-hybrid `build` overload (box-only with `ops = boxOps`, or
cylinder-only with the cylinder operation set), run by `T` worker threads
with search radius `R`. -/
def buildT {V : Type} (ops : VolOps V) (z : V) (R T : ℕ) (prims : ℕ → V)
    (perm : ℕ → ℕ) (P : ℕ) : BuildResult V :=
  let node_count := 2 * P - 1
  let st := buildLoop ops R T P (seedNodes z prims perm P)
    (fun _ => zeroNode V z) (node_count - P) node_count node_count
  ⟨st.1, perm, node_count, st.2.2.1, st.2.2.2.1⟩

/-- The box-only `build` overload, single worker. -/
def boxBuild (R : ℕ) (prims : ℕ → BBox) (perm : ℕ → ℕ) (P : ℕ) :
    BuildResult BBox :=
  buildT boxOps zeroBox R 1 prims perm P

theorem boxOps_comm (va vb : BBox) :
    boxOps.half_area (boxOps.extend va vb) =
      boxOps.half_area (boxOps.extend vb va) := by
  show BBox.half_area (BBox.extend va vb) = BBox.half_area (BBox.extend vb va)
  rw [BBox.extend_comm]

/-- One round of a build window: the computed neighbors satisfy the round
hypotheses, at least one pair merges, and at most half the window merges. -/
theorem round_package {V : Type} (ops : VolOps V) (R T : ℕ)
    (cur : ℕ → BvhNode V) (b e : ℕ) (hR : 1 ≤ R) (hT : 1 ≤ T)
    (he : e = 2 * b + 1) (hsize : b + 2 ≤ e)
    (hcomm : ∀ va vb : V,
      ops.half_area (ops.extend va vb) = ops.half_area (ops.extend vb va)) :
    RoundHyp (nbrPar ops cur R T b e) b e ∧
    1 ≤ mergedCountOf (nbrPar ops cur R T b e) b e ∧
    2 * mergedCountOf (nbrPar ops cur R T b e) b e ≤ e - b := by
  have hsym : ∀ i j, mergeCost ops cur i j = mergeCost ops cur j i := by
    intro i j
    unfold mergeCost
    rw [hcomm]
  have heq : ∀ i, b ≤ i → i < e →
      nbrPar ops cur R T b e i = nbrRef ops cur R b e i := fun i h1 h2 =>
    nbrPar_eq_nbrRef ops cur R T b e hR hT hsize hsym i h1 h2
  have hclosed : ∀ i, b ≤ i → i < e →
      b ≤ nbrPar ops cur R T b e i ∧ nbrPar ops cur R T b e i < e ∧
        nbrPar ops cur R T b e i ≠ i := by
    intro i h1 h2
    rw [heq i h1 h2]
    have hmem := nbrRef_mem_cands ops cur R b e i hR h1 h2 hsize
    rw [mem_cands R b e _ _ h1 h2] at hmem
    exact ⟨hmem.1, hmem.2.1, hmem.2.2.1⟩
  obtain ⟨p, q, hbp, hpq, hqe, hfp, hfq⟩ :=
    exists_mutual_pair ops cur R b e hR hsize hsym
  have hflagp : mergedFlag (nbrPar ops cur R T b e) p = 1 := by
    rw [mergedFlag_eq_one_iff]
    rw [heq p hbp (by omega)]
    rw [hfp]
    rw [heq q (by omega) hqe, hfq]
    exact ⟨hpq, rfl⟩
  have hmpos : 1 ≤ mergedCountOf (nbrPar ops cur R T b e) b e := by
    rw [mergedCountOf_eq_cnt _ b e (by omega)]
    exact cntFlag_pos _ b e p hbp (by omega) hflagp
  have h2m : 2 * mergedCountOf (nbrPar ops cur R T b e) b e ≤ e - b :=
    two_mul_mergedCountOf_le _ b e
      (fun i h1 h2 => ⟨(hclosed i h1 h2).1, (hclosed i h1 h2).2.1⟩)
      (by omega)
  exact ⟨⟨hclosed, by omega, by omega⟩, hmpos, h2m⟩

/-- Every slot of the written window region `[unmerged_begin, end)` is the
destination of exactly one class of source: a survivor's slot, a pair's
parent slot, or one of a pair's two child slots. -/
theorem slot_characterize (nbr : ℕ → ℕ) (b e : ℕ) (hyp : RoundHyp nbr b e)
    (x : ℕ) (hx1 : unmergedBeginOf nbr b e ≤ x) (hx2 : x < e) :
    (∃ k, b ≤ k ∧ k < e ∧ nbr (nbr k) ≠ k ∧
      x = destSurv nbr b (unmergedBeginOf nbr b e) k) ∨
    (∃ i, b ≤ i ∧ i < e ∧ nbr (nbr i) = i ∧ i < nbr i ∧
      x = destSurv nbr b (unmergedBeginOf nbr b e) (nbr i)) ∨
    (∃ i, b ≤ i ∧ i < e ∧ nbr (nbr i) = i ∧ i < nbr i ∧
      (x = destChild nbr b (childrenBeginOf nbr b e) i ∨
       x = destChild nbr b (childrenBeginOf nbr b e) i + 1)) := by
  obtain ⟨hnbr, hmb, hbe⟩ := hyp
  have h2m := two_mul_mergedCountOf_le nbr b e
    (fun i hi1 hi2 => ⟨(hnbr i hi1 hi2).1, (hnbr i hi1 hi2).2.1⟩) hbe
  have hub := unmergedBeginOf_eq nbr b e hmb hbe
  have hmcnt := mergedCountOf_eq_cnt nbr b e hbe
  by_cases hxcb : x < childrenBeginOf nbr b e
  · -- a survivor-or-parent slot: find the non-owner of that rank
    have hrank : x - unmergedBeginOf nbr b e <
        (e - b) - cntFlag nbr b (e - b) := by
      unfold childrenBeginOf childrenCountOf at hxcb
      omega
    obtain ⟨k, hk1, hk2, hkf, hkr⟩ :=
      nonOwner_rank_surj nbr b e (x - unmergedBeginOf nbr b e) hrank
    have hxk : x = destSurv nbr b (unmergedBeginOf nbr b e) k := by
      rw [destSurv_eq_add nbr b _ k hk1 hkf, hkr]
      omega
    by_cases hmut : nbr (nbr k) = k
    · -- k is the higher member of a pair; its owner is nbr k
      right; left
      have hknl := hnbr k hk1 hk2
      have hkgt : nbr k < k := by
        by_contra hc
        have : k < nbr k := by omega
        have : mergedFlag nbr k = 1 :=
          (mergedFlag_eq_one_iff nbr k).mpr ⟨this, hmut⟩
        omega
      refine ⟨nbr k, hknl.1, hknl.2.1, ?_, ?_, ?_⟩
      · rw [hmut]
      · rw [hmut]; omega
      · rw [hmut]; exact hxk
    · left
      exact ⟨k, hk1, hk2, hmut, hxk⟩
  · -- a child slot: find the owner of that pair rank
    have hd : x - childrenBeginOf nbr b e < 2 * cntFlag nbr b (e - b) := by
      unfold childrenBeginOf childrenCountOf at hxcb ⊢
      omega
    obtain ⟨i, hi1, hi2, hif, hir⟩ :=
      owner_rank_surj nbr b e ((x - childrenBeginOf nbr b e) / 2)
        (by omega)
    have hmuti := (mergedFlag_eq_one_iff nbr i).mp hif
    right; right
    refine ⟨i, hi1, hi2, hmuti.2, hmuti.1, ?_⟩
    have hps := owner_psum_pos nbr b i hi1 hif
    unfold destChild
    rw [hir]
    omega

/-- The structural invariant carried through the rounds, stated for the
region `[b, node_count)` of a buffer: leaves have `primitive_count = 1`
and point into the permutation; internal nodes have an odd first-child
index beyond the window's end, children below themselves in the array,
and the exact union of their two children's volumes (in the argument
order the merge wrote it). -/
def StructOK {V : Type} (ops : VolOps V) (nodes : ℕ → BvhNode V)
    (b e nc P : ℕ) : Prop :=
  ∀ x, b ≤ x → x < nc →
    ((nodes x).is_leaf = true →
      (nodes x).primitive_count = 1 ∧ (nodes x).first_child_or_primitive < P) ∧
    ((nodes x).is_leaf = false →
      e ≤ (nodes x).first_child_or_primitive ∧
      x < (nodes x).first_child_or_primitive ∧
      (nodes x).first_child_or_primitive + 1 < nc ∧
      (nodes x).first_child_or_primitive % 2 = 1 ∧
      (nodes x).volume = ops.extend
        (nodes ((nodes x).first_child_or_primitive + 1)).volume
        (nodes ((nodes x).first_child_or_primitive)).volume)

/-- The slots of `[b, nc)` holding a leaf that covers sorted rank `v`. -/
def leafSlots {V : Type} (nodes : ℕ → BvhNode V) (b nc v : ℕ) : Finset ℕ :=
  (Finset.Ico b nc).filter
    (fun x => (nodes x).is_leaf = true ∧
      (nodes x).first_child_or_primitive = v)

/-- The loop invariant of every build's round loop. -/
def LoopInv {V : Type} (ops : VolOps V) (P : ℕ) (cur scr : ℕ → BvhNode V)
    (b e pe : ℕ) : Prop :=
  e = 2 * b + 1 ∧ e ≤ pe ∧ pe ≤ 2 * P - 1 ∧
  (∀ x, pe ≤ x → scr x = cur x) ∧
  StructOK ops cur b e (2 * P - 1) P ∧
  ∀ v, v < P → (leafSlots cur b (2 * P - 1) v).card = 1

/-- The output slot where window node `k`'s record ends up after a round
(survivors in the unmerged region, pair members in the children region);
nodes at or above `end` stay in place. -/
def roundDest (nbr : ℕ → ℕ) (b e k : ℕ) : ℕ :=
  if k < e then
    if nbr (nbr k) = k then
      if k < nbr k then destChild nbr b (childrenBeginOf nbr b e) k
      else destChild nbr b (childrenBeginOf nbr b e) (nbr k) + 1
    else destSurv nbr b (unmergedBeginOf nbr b e) k
  else k

/-- After a round, the slot `roundDest k` holds exactly the old record of
node `k`, for every `k` in `[b, node_count)` (using the propagation
region and the double-buffer agreement above `previous_end`). -/
theorem clusterOut_roundDest {V : Type} (ops : VolOps V) (nbr : ℕ → ℕ)
    (input out0 : ℕ → BvhNode V) (b e pe : ℕ) (hyp : RoundHyp nbr b e)
    (hpe : e ≤ pe) (hagree : ∀ x, pe ≤ x → out0 x = input x)
    (k : ℕ) (h1 : b ≤ k) :
    clusterOut ops nbr input out0 b e pe (roundDest nbr b e k) = input k := by
  unfold roundDest
  by_cases hke : k < e
  · rw [if_pos hke]
    by_cases hmut : nbr (nbr k) = k
    · rw [if_pos hmut]
      by_cases hlt : k < nbr k
      · rw [if_pos hlt]
        exact (clusterOut_children ops nbr input out0 b e pe hyp hpe k
          h1 hke hmut hlt).1
      · rw [if_neg hlt]
        obtain ⟨hnbr, hmb, hbe⟩ := hyp
        have hknl := hnbr k h1 hke
        have hmut2 : nbr (nbr (nbr k)) = nbr k := by rw [hmut]
        have hlt2 : nbr k < nbr (nbr k) := by rw [hmut]; omega
        have := (clusterOut_children ops nbr input out0 b e pe
          ⟨hnbr, hmb, hbe⟩ hpe (nbr k) hknl.1 hknl.2.1 hmut2 hlt2).2
        rw [hmut] at this
        exact this
    · rw [if_neg hmut]
      exact clusterOut_surv ops nbr input out0 b e pe hyp hpe k h1 hke hmut
  · rw [if_neg hke]
    by_cases hkpe : k < pe
    · exact clusterOut_copy ops nbr input out0 b e pe k (by omega) hkpe
    · rw [clusterOut_untouched ops nbr input out0 b e pe hyp hpe k
        (Or.inr (by omega))]
      exact hagree k (by omega)

/-- `roundDest` stays inside `[unmerged_begin, nc)` and is injective on
`[b, nc)`. -/
theorem roundDest_mem_inj (nbr : ℕ → ℕ) (b e nc : ℕ)
    (hyp : RoundHyp nbr b e) (henc : e ≤ nc) :
    (∀ k, b ≤ k → k < nc →
      unmergedBeginOf nbr b e ≤ roundDest nbr b e k ∧ roundDest nbr b e k < nc) ∧
    (∀ k k', b ≤ k → k < nc → b ≤ k' → k' < nc →
      roundDest nbr b e k = roundDest nbr b e k' → k = k') := by
  obtain ⟨hnbr, hmb, hbe⟩ := hyp
  have h2m := two_mul_mergedCountOf_le nbr b e
    (fun i hi1 hi2 => ⟨(hnbr i hi1 hi2).1, (hnbr i hi1 hi2).2.1⟩) hbe
  have hub := unmergedBeginOf_eq nbr b e hmb hbe
  have hmcnt := mergedCountOf_eq_cnt nbr b e hbe
  -- the class-wise target descriptions
  have hdest : ∀ k, b ≤ k → k < e →
      (unmergedBeginOf nbr b e ≤ roundDest nbr b e k ∧
        roundDest nbr b e k < e) := by
    intro k h1 h2
    unfold roundDest
    rw [if_pos h2]
    by_cases hmut : nbr (nbr k) = k
    · rw [if_pos hmut]
      by_cases hlt : k < nbr k
      · rw [if_pos hlt]
        have hf1 : mergedFlag nbr k = 1 :=
          (mergedFlag_eq_one_iff nbr k).mpr ⟨hlt, hmut⟩
        have := destChild_range nbr b e k ⟨hnbr, hmb, hbe⟩ h1 h2 hf1
        have hcbub : unmergedBeginOf nbr b e ≤ childrenBeginOf nbr b e := by
          unfold childrenBeginOf childrenCountOf
          omega
        omega
      · rw [if_neg hlt]
        have hknl := hnbr k h1 h2
        have hmut2 : nbr (nbr (nbr k)) = nbr k := by rw [hmut]
        have hlt2 : nbr k < nbr (nbr k) := by rw [hmut]; omega
        have hf1 : mergedFlag nbr (nbr k) = 1 :=
          (mergedFlag_eq_one_iff nbr (nbr k)).mpr ⟨hlt2, hmut2⟩
        have := destChild_range nbr b e (nbr k) ⟨hnbr, hmb, hbe⟩
          hknl.1 hknl.2.1 hf1
        have hcbub : unmergedBeginOf nbr b e ≤ childrenBeginOf nbr b e := by
          unfold childrenBeginOf childrenCountOf
          omega
        omega
    · rw [if_neg hmut]
      have hf0 : mergedFlag nbr k = 0 := survivor_flag_zero nbr k hmut
      have := destSurv_range nbr b e k ⟨hnbr, hmb, hbe⟩ h1 h2 hf0
      have hcbe : childrenBeginOf nbr b e ≤ e := by
        unfold childrenBeginOf
        omega
      omega
  constructor
  · intro k h1 h2
    by_cases hke : k < e
    · have := hdest k h1 hke
      omega
    · unfold roundDest
      rw [if_neg hke]
      have hube : unmergedBeginOf nbr b e ≤ e := by
        unfold unmergedBeginOf
        omega
      omega
  · intro k k' h1 h2 h1' h2' heq
    by_cases hke : k < e <;> by_cases hke' : k' < e
    · -- both in the window: compare classes
      have hclass : ∀ j, b ≤ j → j < e →
          ((nbr (nbr j) = j ∧ j < nbr j ∧
            roundDest nbr b e j =
              destChild nbr b (childrenBeginOf nbr b e) j) ∨
           (nbr (nbr j) = j ∧ nbr j < j ∧
            roundDest nbr b e j =
              destChild nbr b (childrenBeginOf nbr b e) (nbr j) + 1) ∨
           (nbr (nbr j) ≠ j ∧
            roundDest nbr b e j =
              destSurv nbr b (unmergedBeginOf nbr b e) j)) := by
        intro j hj1 hj2
        unfold roundDest
        rw [if_pos hj2]
        by_cases hmut : nbr (nbr j) = j
        · by_cases hlt : j < nbr j
          · left
            rw [if_pos hmut, if_pos hlt]
            exact ⟨hmut, hlt, rfl⟩
          · right; left
            rw [if_pos hmut, if_neg hlt]
            have := (hnbr j hj1 hj2).2.2
            exact ⟨hmut, by omega, rfl⟩
        · right; right
          rw [if_neg hmut]
          exact ⟨hmut, rfl⟩
      -- ranges of the two destination families
      have hsrange : ∀ j, b ≤ j → j < e → mergedFlag nbr j = 0 →
          unmergedBeginOf nbr b e ≤
            destSurv nbr b (unmergedBeginOf nbr b e) j ∧
          destSurv nbr b (unmergedBeginOf nbr b e) j <
            childrenBeginOf nbr b e := fun j hj1 hj2 hjf =>
        destSurv_range nbr b e j ⟨hnbr, hmb, hbe⟩ hj1 hj2 hjf
      have hcrange : ∀ j, b ≤ j → j < e → mergedFlag nbr j = 1 →
          childrenBeginOf nbr b e ≤
            destChild nbr b (childrenBeginOf nbr b e) j ∧
          destChild nbr b (childrenBeginOf nbr b e) j + 1 < e := fun j hj1 hj2 hjf =>
        destChild_range nbr b e j ⟨hnbr, hmb, hbe⟩ hj1 hj2 hjf
      rcases hclass k h1 hke with ⟨hm, hl, hd⟩ | ⟨hm, hl, hd⟩ | ⟨hm, hd⟩ <;>
        rcases hclass k' h1' hke' with ⟨hm', hl', hd'⟩ | ⟨hm', hl', hd'⟩ |
          ⟨hm', hd'⟩
      · -- owner / owner
        rw [hd, hd'] at heq
        have hf := (mergedFlag_eq_one_iff nbr k).mpr ⟨hl, hm⟩
        have hf' := (mergedFlag_eq_one_iff nbr k').mpr ⟨hl', hm'⟩
        apply owner_rank_inj nbr b e k k' h1 hke hf h1' hke' hf'
        unfold destChild at heq
        have := owner_psum_pos nbr b k h1 hf
        have := owner_psum_pos nbr b k' h1' hf'
        omega
      · -- owner / higher: parity of the child slots separates them
        exfalso
        rw [hd, hd'] at heq
        have hf := (mergedFlag_eq_one_iff nbr k).mpr ⟨hl, hm⟩
        have hknl' := hnbr k' h1' hke'
        have hm2' : nbr (nbr (nbr k')) = nbr k' := by rw [hm']
        have hl2' : nbr k' < nbr (nbr k') := by rw [hm']; omega
        have hf' := (mergedFlag_eq_one_iff nbr (nbr k')).mpr ⟨hl2', hm2'⟩
        unfold destChild at heq
        have := owner_psum_pos nbr b k h1 hf
        have := owner_psum_pos nbr b (nbr k') hknl'.1 hf'
        omega
      · -- owner / survivor: disjoint ranges
        exfalso
        rw [hd, hd'] at heq
        have hf := (mergedFlag_eq_one_iff nbr k).mpr ⟨hl, hm⟩
        have hf' := survivor_flag_zero nbr k' hm'
        have := hcrange k h1 hke hf
        have := hsrange k' h1' hke' hf'
        omega
      · -- higher / owner
        exfalso
        rw [hd, hd'] at heq
        have hknl := hnbr k h1 hke
        have hm2 : nbr (nbr (nbr k)) = nbr k := by rw [hm]
        have hl2 : nbr k < nbr (nbr k) := by rw [hm]; omega
        have hf := (mergedFlag_eq_one_iff nbr (nbr k)).mpr ⟨hl2, hm2⟩
        have hf' := (mergedFlag_eq_one_iff nbr k').mpr ⟨hl', hm'⟩
        unfold destChild at heq
        have := owner_psum_pos nbr b (nbr k) hknl.1 hf
        have := owner_psum_pos nbr b k' h1' hf'
        omega
      · -- higher / higher
        rw [hd, hd'] at heq
        have hknl := hnbr k h1 hke
        have hknl' := hnbr k' h1' hke'
        have hm2 : nbr (nbr (nbr k)) = nbr k := by rw [hm]
        have hl2 : nbr k < nbr (nbr k) := by rw [hm]; omega
        have hf := (mergedFlag_eq_one_iff nbr (nbr k)).mpr ⟨hl2, hm2⟩
        have hm2' : nbr (nbr (nbr k')) = nbr k' := by rw [hm']
        have hl2' : nbr k' < nbr (nbr k') := by rw [hm']; omega
        have hf' := (mergedFlag_eq_one_iff nbr (nbr k')).mpr ⟨hl2', hm2'⟩
        have hnn : nbr k = nbr k' := by
          apply owner_rank_inj nbr b e (nbr k) (nbr k') hknl.1 hknl.2.1 hf
            hknl'.1 hknl'.2.1 hf'
          unfold destChild at heq
          have := owner_psum_pos nbr b (nbr k) hknl.1 hf
          have := owner_psum_pos nbr b (nbr k') hknl'.1 hf'
          omega
        rw [← hm, hnn, hm']
      · -- higher / survivor
        exfalso
        rw [hd, hd'] at heq
        have hknl := hnbr k h1 hke
        have hm2 : nbr (nbr (nbr k)) = nbr k := by rw [hm]
        have hl2 : nbr k < nbr (nbr k) := by rw [hm]; omega
        have hf := (mergedFlag_eq_one_iff nbr (nbr k)).mpr ⟨hl2, hm2⟩
        have hf' := survivor_flag_zero nbr k' hm'
        have := hcrange (nbr k) hknl.1 hknl.2.1 hf
        have := hsrange k' h1' hke' hf'
        omega
      · -- survivor / owner
        exfalso
        rw [hd, hd'] at heq
        have hf := survivor_flag_zero nbr k hm
        have hf' := (mergedFlag_eq_one_iff nbr k').mpr ⟨hl', hm'⟩
        have := hsrange k h1 hke hf
        have := hcrange k' h1' hke' hf'
        omega
      · -- survivor / higher
        exfalso
        rw [hd, hd'] at heq
        have hf := survivor_flag_zero nbr k hm
        have hknl' := hnbr k' h1' hke'
        have hm2' : nbr (nbr (nbr k')) = nbr k' := by rw [hm']
        have hl2' : nbr k' < nbr (nbr k') := by rw [hm']; omega
        have hf' := (mergedFlag_eq_one_iff nbr (nbr k')).mpr ⟨hl2', hm2'⟩
        have := hsrange k h1 hke hf
        have := hcrange (nbr k') hknl'.1 hknl'.2.1 hf'
        omega
      · -- survivor / survivor
        rw [hd, hd'] at heq
        exact destSurv_inj nbr b e _ k k' h1 hke (survivor_flag_zero nbr k hm)
          h1' hke' (survivor_flag_zero nbr k' hm') heq
    · -- k in window, k' frozen
      exfalso
      have := hdest k h1 hke
      unfold roundDest at heq
      rw [if_pos hke, if_neg hke'] at heq
      unfold roundDest at this
      rw [if_pos hke] at this
      omega
    · exfalso
      have := hdest k' h1' hke'
      unfold roundDest at heq
      rw [if_neg hke, if_pos hke'] at heq
      unfold roundDest at this
      rw [if_pos hke'] at this
      omega
    · unfold roundDest at heq
      rw [if_neg hke, if_neg hke'] at heq
      exact heq

/-- Everything at or above `end` is, after the round, the input's record
(copied directly, or already equal in the output buffer from two rounds
ago). -/
theorem clusterOut_high {V : Type} (ops : VolOps V) (nbr : ℕ → ℕ)
    (input out0 : ℕ → BvhNode V) (b e pe : ℕ) (hyp : RoundHyp nbr b e)
    (hpe : e ≤ pe) (hagree : ∀ x, pe ≤ x → out0 x = input x)
    (x : ℕ) (hx : e ≤ x) :
    clusterOut ops nbr input out0 b e pe x = input x := by
  by_cases hxpe : x < pe
  · exact clusterOut_copy ops nbr input out0 b e pe x hx hxpe
  · rw [clusterOut_untouched ops nbr input out0 b e pe hyp hpe x
      (Or.inr (by omega))]
    exact hagree x (by omega)

/-- A round preserves the per-rank leaf count: each window node's record
moves to its unique output slot, new parents are not leaves, and the
region at or above `end` is unchanged. -/
theorem leafSlots_card_preserved {V : Type} (ops : VolOps V) (nbr : ℕ → ℕ)
    (input out0 : ℕ → BvhNode V) (b e pe nc v : ℕ) (hyp : RoundHyp nbr b e)
    (hpe : e ≤ pe) (hnc : pe ≤ nc)
    (hagree : ∀ x, pe ≤ x → out0 x = input x) :
    (leafSlots (clusterOut ops nbr input out0 b e pe)
      (unmergedBeginOf nbr b e) nc v).card =
    (leafSlots input b nc v).card := by
  obtain ⟨hnbr, hmb, hbe⟩ := hyp
  obtain ⟨hmem, hinj⟩ := roundDest_mem_inj nbr b e nc ⟨hnbr, hmb, hbe⟩
    (by omega)
  symm
  apply Finset.card_bij (fun k _ => roundDest nbr b e k)
  · -- membership
    intro k hk
    rw [leafSlots, Finset.mem_filter, Finset.mem_Ico] at hk
    obtain ⟨⟨hk1, hk2⟩, hkl, hkv⟩ := hk
    rw [leafSlots, Finset.mem_filter, Finset.mem_Ico]
    have hval := clusterOut_roundDest ops nbr input out0 b e pe
      ⟨hnbr, hmb, hbe⟩ hpe hagree k hk1
    have hrange := hmem k hk1 hk2
    exact ⟨⟨hrange.1, hrange.2⟩, by rw [hval]; exact hkl,
      by rw [hval]; exact hkv⟩
  · -- injectivity
    intro k hk k' hk' heq
    rw [leafSlots, Finset.mem_filter, Finset.mem_Ico] at hk hk'
    exact hinj k k' hk.1.1 hk.1.2 hk'.1.1 hk'.1.2 heq
  · -- surjectivity
    intro x hx
    rw [leafSlots, Finset.mem_filter, Finset.mem_Ico] at hx
    obtain ⟨⟨hx1, hx2⟩, hxl, hxv⟩ := hx
    by_cases hxe : e ≤ x
    · refine ⟨x, ?_, ?_⟩
      · rw [leafSlots, Finset.mem_filter, Finset.mem_Ico]
        have hval := clusterOut_high ops nbr input out0 b e pe
          ⟨hnbr, hmb, hbe⟩ hpe hagree x hxe
        rw [hval] at hxl hxv
        exact ⟨⟨by omega, hx2⟩, hxl, hxv⟩
      · unfold roundDest
        rw [if_neg (by omega)]
    · rcases slot_characterize nbr b e ⟨hnbr, hmb, hbe⟩ x hx1 (by omega)
        with ⟨k, hk1, hk2, hks, hkd⟩ | ⟨i, hi1, hi2, him, hil, hid⟩ |
          ⟨i, hi1, hi2, him, hil, hid⟩
      · -- survivor slot
        have hval := clusterOut_surv ops nbr input out0 b e pe
          ⟨hnbr, hmb, hbe⟩ hpe k hk1 hk2 hks
        rw [hkd, hval] at hxl hxv
        refine ⟨k, ?_, ?_⟩
        · rw [leafSlots, Finset.mem_filter, Finset.mem_Ico]
          exact ⟨⟨hk1, by omega⟩, hxl, hxv⟩
        · unfold roundDest
          rw [if_pos hk2, if_neg hks, hkd]
      · -- parent slot: the parent is not a leaf, contradiction
        exfalso
        have hval := clusterOut_parent ops nbr input out0 b e pe
          ⟨hnbr, hmb, hbe⟩ hpe i hi1 hi2 him hil
        rw [hid, hval] at hxl
        simp at hxl
      · -- child slots
        have hch := clusterOut_children ops nbr input out0 b e pe
          ⟨hnbr, hmb, hbe⟩ hpe i hi1 hi2 him hil
        rcases hid with hid | hid
        · rw [hid, hch.1] at hxl hxv
          refine ⟨i, ?_, ?_⟩
          · rw [leafSlots, Finset.mem_filter, Finset.mem_Ico]
            exact ⟨⟨hi1, by omega⟩, hxl, hxv⟩
          · unfold roundDest
            rw [if_pos hi2, if_pos him, if_pos hil, hid]
        · rw [hid, hch.2] at hxl hxv
          have hknl := hnbr i hi1 hi2
          refine ⟨nbr i, ?_, ?_⟩
          · rw [leafSlots, Finset.mem_filter, Finset.mem_Ico]
            exact ⟨⟨hknl.1, by omega⟩, hxl, hxv⟩
          · unfold roundDest
            have hm2 : nbr (nbr (nbr i)) = nbr i := by rw [him]
            have hl2 : ¬ nbr i < nbr (nbr i) := by rw [him]; omega
            rw [if_pos hknl.2.1, if_pos hm2, if_neg hl2, him, hid]

/-- One round preserves the loop invariant; the new window is strictly
smaller but still nonempty. -/
theorem loopInv_step {V : Type} (ops : VolOps V) (R T P : ℕ)
    (cur scr : ℕ → BvhNode V) (b e pe : ℕ)
    (hinv : LoopInv ops P cur scr b e pe) (hsize : b + 2 ≤ e)
    (hR : 1 ≤ R) (hT : 1 ≤ T)
    (hcomm : ∀ va vb : V,
      ops.half_area (ops.extend va vb) = ops.half_area (ops.extend vb va)) :
    LoopInv ops P (clusterOut ops (nbrPar ops cur R T b e) cur scr b e pe)
      cur (unmergedBeginOf (nbrPar ops cur R T b e) b e)
      (childrenBeginOf (nbrPar ops cur R T b e) b e) e ∧
    childrenBeginOf (nbrPar ops cur R T b e) b e -
      unmergedBeginOf (nbrPar ops cur R T b e) b e < e - b ∧
    1 ≤ childrenBeginOf (nbrPar ops cur R T b e) b e -
      unmergedBeginOf (nbrPar ops cur R T b e) b e := by
  obtain ⟨he2, hepe, hpenc, hagree, hstruct, hcount⟩ := hinv
  obtain ⟨hyp, hm1, h2m⟩ := round_package ops R T cur b e hR hT he2 hsize hcomm
  set nbr := nbrPar ops cur R T b e with hnbrdef
  obtain ⟨hnbr, hmb, hbe⟩ := hyp
  set m := mergedCountOf nbr b e with hmdef
  have hub : unmergedBeginOf nbr b e = b - m :=
    unmergedBeginOf_eq nbr b e hmb hbe
  have hcb : childrenBeginOf nbr b e = e - m * 2 := rfl
  set out := clusterOut ops nbr cur scr b e pe with houtdef
  have hOutHigh : ∀ x, e ≤ x → out x = cur x := fun x hx =>
    clusterOut_high ops nbr cur scr b e pe ⟨hnbr, hmb, hbe⟩ (by omega)
      hagree x hx
  have hmcnt : m = cntFlag nbr b (e - b) := mergedCountOf_eq_cnt nbr b e hbe
  have hcbub : unmergedBeginOf nbr b e ≤ childrenBeginOf nbr b e := by
    omega
  -- the uniform case: an output slot holding a window node's or a frozen
  -- node's old record satisfies the structural invariant
  have hcase : ∀ x k, out x = cur k → b ≤ k → k < 2 * P - 1 →
      (x < e ∨ x = k) →
      ((out x).is_leaf = true →
        (out x).primitive_count = 1 ∧
          (out x).first_child_or_primitive < P) ∧
      ((out x).is_leaf = false →
        childrenBeginOf nbr b e ≤ (out x).first_child_or_primitive ∧
        x < (out x).first_child_or_primitive ∧
        (out x).first_child_or_primitive + 1 < 2 * P - 1 ∧
        (out x).first_child_or_primitive % 2 = 1 ∧
        (out x).volume = ops.extend
          (out ((out x).first_child_or_primitive + 1)).volume
          (out ((out x).first_child_or_primitive)).volume) := by
    intro x k hval hk1 hk2 hxk
    obtain ⟨hleaf, hint⟩ := hstruct k hk1 hk2
    rw [hval]
    refine ⟨hleaf, ?_⟩
    intro hnl
    obtain ⟨hfc1, hfc2, hfc3, hfc4, hfc5⟩ := hint hnl
    refine ⟨by omega, by omega, hfc3, hfc4, ?_⟩
    rw [hOutHigh ((cur k).first_child_or_primitive + 1) (by omega),
      hOutHigh ((cur k).first_child_or_primitive) (by omega)]
    exact hfc5
  refine ⟨⟨by omega, by omega, by omega, ?_, ?_, ?_⟩, by omega, by omega⟩
  · -- double-buffer agreement for the next round
    intro x hx
    exact (hOutHigh x hx).symm
  · -- structural invariant
    intro x hx1 hx2
    by_cases hxe : e ≤ x
    · exact hcase x x (hOutHigh x hxe) (by omega) hx2 (Or.inr rfl)
    · rcases slot_characterize nbr b e ⟨hnbr, hmb, hbe⟩ x hx1 (by omega)
        with ⟨k, hk1, hk2, hks, hkd⟩ | ⟨i, hi1, hi2, him, hil, hid⟩ |
          ⟨i, hi1, hi2, him, hil, hid⟩
      · -- survivor
        have hval : out x = cur k := by
          rw [hkd]
          exact clusterOut_surv ops nbr cur scr b e pe ⟨hnbr, hmb, hbe⟩
            (by omega) k hk1 hk2 hks
        exact hcase x k hval hk1 (by omega) (Or.inl (by omega))
      · -- new parent
        have hval : out x = { scr x with
            volume := ops.extend (cur (nbr i)).volume (cur i).volume,
            is_leaf := false,
            first_child_or_primitive :=
              destChild nbr b (childrenBeginOf nbr b e) i } := by
          rw [hid]
          exact clusterOut_parent ops nbr cur scr b e pe ⟨hnbr, hmb, hbe⟩
            (by omega) i hi1 hi2 him hil
        have hflag1 : mergedFlag nbr i = 1 :=
          (mergedFlag_eq_one_iff nbr i).mpr ⟨hil, him⟩
        have hcr := destChild_range nbr b e i ⟨hnbr, hmb, hbe⟩ hi1 hi2 hflag1
        have hjw := hnbr i hi1 hi2
        have hfj : mergedFlag nbr (nbr i) = 0 :=
          partner_flag_zero nbr i him hil
        have hxr := destSurv_range nbr b e (nbr i) ⟨hnbr, hmb, hbe⟩
          hjw.1 hjw.2.1 hfj
        have hch := clusterOut_children ops nbr cur scr b e pe
          ⟨hnbr, hmb, hbe⟩ (by omega) i hi1 hi2 him hil
        have hrank := owner_rank_lt nbr b e i hi1 hi2 hflag1
        have hpsp := owner_psum_pos nbr b i hi1 hflag1
        have hval2 : out x = ⟨ops.extend (cur (nbr i)).volume (cur i).volume,
            false, (scr x).primitive_count,
            destChild nbr b (childrenBeginOf nbr b e) i, (scr x).origin⟩ :=
          hval
        have hch2 : out (destChild nbr b (childrenBeginOf nbr b e) i) = cur i
            ∧ out (destChild nbr b (childrenBeginOf nbr b e) i + 1) =
              cur (nbr i) := hch
        rw [hval2]
        constructor
        · intro hc
          exact absurd hc (by simp)
        · intro hfalse
          dsimp only
          refine ⟨hcr.1, by omega, by omega, ?_, ?_⟩
          · unfold destChild
            rw [hcb]
            omega
          · rw [hch2.1, hch2.2]
      · -- copied child of a merged pair
        have hch := clusterOut_children ops nbr cur scr b e pe
          ⟨hnbr, hmb, hbe⟩ (by omega) i hi1 hi2 him hil
        have hjw := hnbr i hi1 hi2
        rcases hid with hid | hid
        · have hval : out x = cur i := by
            rw [hid]
            exact hch.1
          exact hcase x i hval hi1 (by omega) (Or.inl (by omega))
        · have hval : out x = cur (nbr i) := by
            rw [hid]
            exact hch.2
          exact hcase x (nbr i) hval hjw.1 (by omega) (Or.inl (by omega))
  · -- per-rank leaf count
    intro v hv
    rw [houtdef, hnbrdef]
    rw [leafSlots_card_preserved ops (nbrPar ops cur R T b e) cur scr b e pe
      (2 * P - 1) v ⟨hnbr, hmb, hbe⟩ (by omega) (by omega) hagree]
    exact hcount v hv

/-!
## The round depends only on the neighbor values inside the window

Every quantity of a round reads the neighbor array only at window indices,
so two neighbor functions agreeing on `[begin, end)` produce identical
rounds.  This is what makes the result independent of the thread chunking.
-/

theorem mergedFlag_congr (nbr nbr2 : ℕ → ℕ) (b e i : ℕ)
    (h : ∀ k, b ≤ k → k < e → nbr k = nbr2 k)
    (hclosed : ∀ k, b ≤ k → k < e → b ≤ nbr k ∧ nbr k < e)
    (h1 : b ≤ i) (h2 : i < e) :
    mergedFlag nbr i = mergedFlag nbr2 i := by
  unfold mergedFlag
  have hji := h i h1 h2
  have hjw := hclosed i h1 h2
  have hjj : nbr (nbr i) = nbr2 (nbr2 i) := by
    rw [← hji]
    exact h (nbr i) hjw.1 hjw.2
  rw [← hjj, ← hji]

theorem cntFlag_congr (nbr nbr2 : ℕ → ℕ) (b e : ℕ)
    (h : ∀ k, b ≤ k → k < e → nbr k = nbr2 k)
    (hclosed : ∀ k, b ≤ k → k < e → b ≤ nbr k ∧ nbr k < e) :
    ∀ n, b + n ≤ e → cntFlag nbr b n = cntFlag nbr2 b n := by
  intro n
  induction n with
  | zero => intro _; rfl
  | succ n ih =>
    intro hn
    rw [cntFlag_succ, cntFlag_succ, ih (by omega),
      mergedFlag_congr nbr nbr2 b e (b + n) h hclosed (by omega) (by omega)]

theorem psum_congr (nbr nbr2 : ℕ → ℕ) (b e i : ℕ)
    (h : ∀ k, b ≤ k → k < e → nbr k = nbr2 k)
    (hclosed : ∀ k, b ≤ k → k < e → b ≤ nbr k ∧ nbr k < e)
    (hbe : b < e) (h2 : i < e) : psum nbr b i = psum nbr2 b i := by
  unfold psum
  exact cntFlag_congr nbr nbr2 b e h hclosed (i + 1 - b) (by omega)

theorem mergedCountOf_congr (nbr nbr2 : ℕ → ℕ) (b e : ℕ)
    (h : ∀ k, b ≤ k → k < e → nbr k = nbr2 k)
    (hclosed : ∀ k, b ≤ k → k < e → b ≤ nbr k ∧ nbr k < e) (hbe : b < e) :
    mergedCountOf nbr b e = mergedCountOf nbr2 b e :=
  psum_congr nbr nbr2 b e (e - 1) h hclosed hbe (by omega)

theorem windows_congr (nbr nbr2 : ℕ → ℕ) (b e : ℕ)
    (h : ∀ k, b ≤ k → k < e → nbr k = nbr2 k)
    (hclosed : ∀ k, b ≤ k → k < e → b ≤ nbr k ∧ nbr k < e) (hbe : b < e) :
    unmergedBeginOf nbr b e = unmergedBeginOf nbr2 b e ∧
    childrenBeginOf nbr b e = childrenBeginOf nbr2 b e := by
  have hm := mergedCountOf_congr nbr nbr2 b e h hclosed hbe
  unfold unmergedBeginOf childrenBeginOf childrenCountOf unmergedCountOf
  rw [hm]
  exact ⟨rfl, rfl⟩

theorem roundStep_congr {V : Type} (ops : VolOps V) (nbr nbr2 : ℕ → ℕ)
    (b e : ℕ) (input : ℕ → BvhNode V)
    (h : ∀ k, b ≤ k → k < e → nbr k = nbr2 k)
    (hclosed : ∀ k, b ≤ k → k < e → b ≤ nbr k ∧ nbr k < e) (hbe : b < e)
    (f : ℕ → BvhNode V) (i : ℕ) (h1 : b ≤ i) (h2 : i < e) :
    roundStep ops nbr b (unmergedBeginOf nbr b e) (childrenBeginOf nbr b e)
      input f i =
    roundStep ops nbr2 b (unmergedBeginOf nbr2 b e)
      (childrenBeginOf nbr2 b e) input f i := by
  obtain ⟨hubeq, hcbeq⟩ := windows_congr nbr nbr2 b e h hclosed hbe
  have hji := h i h1 h2
  have hjw := hclosed i h1 h2
  have hjj : nbr (nbr i) = nbr2 (nbr2 i) := by
    rw [← hji]
    exact h (nbr i) hjw.1 hjw.2
  have hdS : ∀ k, k < e → destSurv nbr b (unmergedBeginOf nbr b e) k =
      destSurv nbr2 b (unmergedBeginOf nbr2 b e) k := by
    intro k hk
    unfold destSurv
    rw [hubeq, psum_congr nbr nbr2 b e k h hclosed hbe hk]
  have hdC : destChild nbr b (childrenBeginOf nbr b e) i =
      destChild nbr2 b (childrenBeginOf nbr2 b e) i := by
    unfold destChild
    rw [hcbeq, psum_congr nbr nbr2 b e i h hclosed hbe h2]
  simp only [roundStep]
  rw [← hjj, ← hji]
  by_cases hmut : nbr (nbr i) = i
  · rw [if_pos hmut, if_pos hmut]
    by_cases hlt : i < nbr i
    · rw [if_pos hlt, if_pos hlt]
      rw [← hdS (nbr i) hjw.2, ← hdC]
    · rw [if_neg hlt, if_neg hlt]
  · rw [if_neg hmut, if_neg hmut]
    rw [← hdS i h2]

theorem clusterOut_congr {V : Type} (ops : VolOps V) (nbr nbr2 : ℕ → ℕ)
    (input out0 : ℕ → BvhNode V) (b e pe : ℕ)
    (h : ∀ k, b ≤ k → k < e → nbr k = nbr2 k)
    (hclosed : ∀ k, b ≤ k → k < e → b ≤ nbr k ∧ nbr k < e) (hbe : b < e) :
    clusterOut ops nbr input out0 b e pe =
      clusterOut ops nbr2 input out0 b e pe := by
  unfold clusterOut
  have hfold : ∀ (l : List ℕ) (f0 : ℕ → BvhNode V),
      (∀ k ∈ l, b ≤ k ∧ k < e) →
      l.foldl (roundStep ops nbr b (unmergedBeginOf nbr b e)
        (childrenBeginOf nbr b e) input) f0 =
      l.foldl (roundStep ops nbr2 b (unmergedBeginOf nbr2 b e)
        (childrenBeginOf nbr2 b e) input) f0 := by
    intro l
    induction l with
    | nil => intro f0 _; rfl
    | cons y t ih =>
      intro f0 hmem
      rw [List.foldl_cons, List.foldl_cons]
      obtain ⟨hy1, hy2⟩ := hmem y (List.mem_cons_self y t)
      rw [roundStep_congr ops nbr nbr2 b e input h hclosed hbe f0 y hy1 hy2]
      exact ih _ (fun k hk => hmem k (List.mem_cons_of_mem y hk))
  rw [hfold (List.range' b (e - b)) out0 ?hm]
  case hm =>
    intro k hk
    rw [List.mem_range'_1] at hk
    omega

/-- The round loop, run with enough fuel from an invariant state, reaches a
one-node window, preserving the invariant. -/
theorem buildLoop_spec {V : Type} (ops : VolOps V) (R T P : ℕ)
    (hR : 1 ≤ R) (hT : 1 ≤ T)
    (hcomm : ∀ va vb : V,
      ops.half_area (ops.extend va vb) = ops.half_area (ops.extend vb va)) :
    ∀ (fuel : ℕ) (cur scr : ℕ → BvhNode V) (b e pe : ℕ),
      LoopInv ops P cur scr b e pe → e - b ≤ fuel + 1 →
      LoopInv ops P (buildLoop ops R T fuel cur scr b e pe).1
        (buildLoop ops R T fuel cur scr b e pe).2.1
        (buildLoop ops R T fuel cur scr b e pe).2.2.1
        (buildLoop ops R T fuel cur scr b e pe).2.2.2.1
        (buildLoop ops R T fuel cur scr b e pe).2.2.2.2 ∧
      (buildLoop ops R T fuel cur scr b e pe).2.2.2.1 -
        (buildLoop ops R T fuel cur scr b e pe).2.2.1 = 1 := by
  intro fuel
  induction fuel with
  | zero =>
    intro cur scr b e pe hinv hfuel
    have he2 := hinv.1
    simp only [buildLoop]
    exact ⟨hinv, by omega⟩
  | succ fuel ih =>
    intro cur scr b e pe hinv hfuel
    have he2 := hinv.1
    by_cases hsize : e - b ≤ 1
    · simp only [buildLoop, if_pos hsize]
      exact ⟨hinv, by omega⟩
    · simp only [buildLoop, if_neg hsize]
      obtain ⟨hinv2, hlt, hge⟩ := loopInv_step ops R T P cur scr b e pe hinv
        (by omega) hR hT hcomm
      exact ih _ _ _ _ _ hinv2 (by omega)

/-- The invariant holds right after the leaf-creation loop. -/
theorem loopInv_init {V : Type} (ops : VolOps V) (z : V) (prims : ℕ → V)
    (perm : ℕ → ℕ) (P : ℕ) (hP : 1 ≤ P) :
    LoopInv ops P (seedNodes z prims perm P) (fun _ => zeroNode V z)
      (2 * P - 1 - P) (2 * P - 1) (2 * P - 1) := by
  refine ⟨by omega, le_refl _, le_refl _, ?_, ?_, ?_⟩
  · intro x hx
    unfold seedNodes
    rw [if_neg (by omega)]
  · intro x hx1 hx2
    unfold seedNodes
    rw [if_pos ⟨hx1, hx2⟩]
    constructor
    · intro _
      refine ⟨rfl, ?_⟩
      show x - (2 * P - 1 - P) < P
      omega
    · intro hc
      exact absurd hc (by simp [leafNode])
  · intro v hv
    have hset : leafSlots (seedNodes z prims perm P) (2 * P - 1 - P)
        (2 * P - 1) v = {2 * P - 1 - P + v} := by
      ext x
      rw [leafSlots, Finset.mem_filter, Finset.mem_Ico, Finset.mem_singleton]
      constructor
      · rintro ⟨⟨hx1, hx2⟩, -, hxv⟩
        unfold seedNodes at hxv
        rw [if_pos ⟨hx1, hx2⟩] at hxv
        have hxv2 : x - (2 * P - 1 - P) = v := hxv
        omega
      · intro hx
        subst hx
        refine ⟨⟨by omega, by omega⟩, ?_, ?_⟩
        · unfold seedNodes
          rw [if_pos ⟨by omega, by omega⟩]
          rfl
        · unfold seedNodes
          rw [if_pos ⟨by omega, by omega⟩]
          show 2 * P - 1 - P + v - (2 * P - 1 - P) = v
          omega
    rw [hset]
    exact Finset.card_singleton _

/-- Every non-hybrid build: `node_count = 2P-1`, the loop ends with the
one-node window `[0, 1)`, and the finished array satisfies the structural
invariant and the per-rank leaf count. -/
theorem buildT_spec {V : Type} (ops : VolOps V) (z : V) (R T : ℕ)
    (prims : ℕ → V) (perm : ℕ → ℕ) (P : ℕ)
    (hP : 1 ≤ P) (hR : 1 ≤ R) (hT : 1 ≤ T)
    (hcomm : ∀ va vb : V,
      ops.half_area (ops.extend va vb) = ops.half_area (ops.extend vb va)) :
    (buildT ops z R T prims perm P).node_count = 2 * P - 1 ∧
    (buildT ops z R T prims perm P).final_begin = 0 ∧
    (buildT ops z R T prims perm P).final_end = 1 ∧
    StructOK ops (buildT ops z R T prims perm P).nodes 0 1 (2 * P - 1) P ∧
    (∀ v, v < P →
      (leafSlots (buildT ops z R T prims perm P).nodes 0 (2 * P - 1) v).card
        = 1) ∧
    (buildT ops z R T prims perm P).primitive_indices = perm := by
  have hinit := loopInv_init ops z prims perm P hP
  have hspec := buildLoop_spec ops R T P hR hT hcomm P
    (seedNodes z prims perm P) (fun _ => zeroNode V z)
    (2 * P - 1 - P) (2 * P - 1) (2 * P - 1) hinit (by omega)
  obtain ⟨hinv, hone⟩ := hspec
  obtain ⟨he2, hepe, hpenc, hagree, hstruct, hcount⟩ := hinv
  have hb0 : (buildLoop ops R T P (seedNodes z prims perm P)
      (fun _ => zeroNode V z) (2 * P - 1 - P) (2 * P - 1)
      (2 * P - 1)).2.2.1 = 0 := by omega
  have he1 : (buildLoop ops R T P (seedNodes z prims perm P)
      (fun _ => zeroNode V z) (2 * P - 1 - P) (2 * P - 1)
      (2 * P - 1)).2.2.2.1 = 1 := by omega
  rw [hb0, he1] at hstruct
  refine ⟨rfl, hb0, he1, hstruct, ?_, rfl⟩
  intro v hv
  have := hcount v hv
  rw [hb0] at this
  exact this

/-- The whole round loop is independent of the worker-thread count. -/
theorem buildLoop_threads {V : Type} (ops : VolOps V) (R T T2 : ℕ)
    (hR : 1 ≤ R) (hT : 1 ≤ T) (hT2 : 1 ≤ T2)
    (hcomm : ∀ va vb : V,
      ops.half_area (ops.extend va vb) = ops.half_area (ops.extend vb va)) :
    ∀ (fuel : ℕ) (cur scr : ℕ → BvhNode V) (b e pe : ℕ),
      buildLoop ops R T fuel cur scr b e pe =
        buildLoop ops R T2 fuel cur scr b e pe := by
  intro fuel
  induction fuel with
  | zero => intro cur scr b e pe; rfl
  | succ fuel ih =>
    intro cur scr b e pe
    by_cases hsize : e - b ≤ 1
    · simp only [buildLoop, if_pos hsize]
    · simp only [buildLoop, if_neg hsize]
      have hsym : ∀ i j, mergeCost ops cur i j = mergeCost ops cur j i := by
        intro i j
        unfold mergeCost
        rw [hcomm]
      have hagree : ∀ k, b ≤ k → k < e →
          nbrPar ops cur R T b e k = nbrPar ops cur R T2 b e k := by
        intro k h1 h2
        rw [nbrPar_eq_nbrRef ops cur R T b e hR hT (by omega) hsym k h1 h2,
          nbrPar_eq_nbrRef ops cur R T2 b e hR hT2 (by omega) hsym k h1 h2]
      have hclosed : ∀ k, b ≤ k → k < e →
          b ≤ nbrPar ops cur R T b e k ∧ nbrPar ops cur R T b e k < e := by
        intro k h1 h2
        rw [nbrPar_eq_nbrRef ops cur R T b e hR hT (by omega) hsym k h1 h2]
        have hmem := nbrRef_mem_cands ops cur R b e k hR h1 h2 (by omega)
        rw [mem_cands R b e _ _ h1 h2] at hmem
        exact ⟨hmem.1, hmem.2.1⟩
      have hout := clusterOut_congr ops (nbrPar ops cur R T b e)
        (nbrPar ops cur R T2 b e) cur scr b e pe hagree hclosed (by omega)
      obtain ⟨hubeq, hcbeq⟩ := windows_congr (nbrPar ops cur R T b e)
        (nbrPar ops cur R T2 b e) b e hagree hclosed (by omega)
      rw [hout, hubeq, hcbeq]
      exact ih _ _ _ _ _

/-- Any non-hybrid build produces the same tree regardless of the number of
worker threads. -/
theorem buildT_threads {V : Type} (ops : VolOps V) (z : V) (R T T2 : ℕ)
    (prims : ℕ → V) (perm : ℕ → ℕ) (P : ℕ)
    (hR : 1 ≤ R) (hT : 1 ≤ T) (hT2 : 1 ≤ T2)
    (hcomm : ∀ va vb : V,
      ops.half_area (ops.extend va vb) = ops.half_area (ops.extend vb va)) :
    buildT ops z R T prims perm P = buildT ops z R T2 prims perm P := by
  simp only [buildT]
  rw [buildLoop_threads ops R T T2 hR hT hT2 hcomm P]

/-!
## The hybrid (cylinder-then-box) build

Lines 329–440: run cylinder rounds, incrementing `k` after each round and
breaking when `k == iteration`; then convert the first `primitive_count`
slots of a fresh `2P-1` box arena from the cylinder nodes (marking the
ones inside the hand-off window as leaves, `origin` pointing back), and
continue clustering with boxes.  The cylinder bounding volume type and its
arithmetic (`BoundingCyl`) are not part of `src/`; modelled from the spec
as an abstract volume type with the fixed operation set plus the AABB
conversion `toAABB`.
-/

/-- The cylinder-phase round loop with the `k == iteration` break (the
check happens after `k++`, so it can only fire for `iteration ≥ 1`).
Returns the two buffers, `begin`, `end`, `previous_end`, and the number of
rounds executed. -/
def cylLoop {V : Type} (ops : VolOps V) (R T iteration : ℕ) :
    ℕ → (ℕ → BvhNode V) → (ℕ → BvhNode V) → ℕ → ℕ → ℕ → ℕ →
    ((ℕ → BvhNode V) × (ℕ → BvhNode V) × ℕ × ℕ × ℕ × ℕ)
  | 0, cur, scr, b, e, pe, k => (cur, scr, b, e, pe, k)
  | fuel + 1, cur, scr, b, e, pe, k =>
    if e - b ≤ 1 then (cur, scr, b, e, pe, k)
    else
      if k + 1 = iteration then
        (clusterOut ops (nbrPar ops cur R T b e) cur scr b e pe, cur,
         unmergedBeginOf (nbrPar ops cur R T b e) b e,
         childrenBeginOf (nbrPar ops cur R T b e) b e, e, k + 1)
      else
        cylLoop ops R T iteration fuel
          (clusterOut ops (nbrPar ops cur R T b e) cur scr b e pe) cur
          (unmergedBeginOf (nbrPar ops cur R T b e) b e)
          (childrenBeginOf (nbrPar ops cur R T b e) b e) e (k + 1)

/-- The hand-off conversion loop (`for i in [0, primitive_count)`): box
node `i` gets the AABB of cylinder node `i`, carried flags, `origin = i`,
and is forced to a leaf if inside the hand-off window; every slot at or
beyond `primitive_count` keeps its value-initialized (zero) contents. -/
def handOff {CV : Type} (toAABB : CV → BBox) (P b e : ℕ)
    (cnodes : ℕ → BvhNode CV) : ℕ → BvhNode BBox := fun i =>
  if i < P then
    ⟨toAABB (cnodes i).volume,
     if b ≤ i ∧ i < e then true else (cnodes i).is_leaf,
     (cnodes i).primitive_count,
     (cnodes i).first_child_or_primitive,
     i⟩
  else zeroNode BBox zeroBox

/-- The two linked trees a hybrid build hands to the `Bvh`, plus the
hand-off window and the number of cylinder rounds executed (for
specification purposes). -/
structure HybridResult (CV : Type) where
  nodes : ℕ → BvhNode BBox
  cnodes : ℕ → BvhNode CV
  primitive_indices : ℕ → ℕ
  node_count : ℕ
  cyl_rounds : ℕ
  handoff_begin : ℕ
  handoff_end : ℕ

/-- The hybrid `build` overload. -/
def hybridBuildT {CV : Type} (cops : VolOps CV) (zc : CV)
    (toAABB : CV → BBox) (R T : ℕ) (prims : ℕ → CV) (perm : ℕ → ℕ)
    (P iteration : ℕ) : HybridResult CV :=
  let node_count := 2 * P - 1
  let st := cylLoop cops R T iteration P (seedNodes zc prims perm P)
    (fun _ => zeroNode CV zc) (node_count - P) node_count node_count 0
  let bnodes0 := handOff toAABB P st.2.2.1 st.2.2.2.1 st.1
  let bst := buildLoop boxOps R T P bnodes0 (fun _ => zeroNode BBox zeroBox)
    st.2.2.1 st.2.2.2.1 st.2.2.2.2.1
  ⟨bst.1, st.1, perm, node_count, st.2.2.2.2.2, st.2.2.1, st.2.2.2.1⟩

/-- With `iteration = 0` the break test `k + 1 = 0` never fires: the
cylinder loop behaves exactly like the non-hybrid round loop. -/
theorem cylLoop_iter_zero {V : Type} (ops : VolOps V) (R T : ℕ) :
    ∀ (fuel : ℕ) (cur scr : ℕ → BvhNode V) (b e pe k : ℕ),
      (cylLoop ops R T 0 fuel cur scr b e pe k).1 =
        (buildLoop ops R T fuel cur scr b e pe).1 ∧
      (cylLoop ops R T 0 fuel cur scr b e pe k).2.2.1 =
        (buildLoop ops R T fuel cur scr b e pe).2.2.1 ∧
      (cylLoop ops R T 0 fuel cur scr b e pe k).2.2.2.1 =
        (buildLoop ops R T fuel cur scr b e pe).2.2.2.1 ∧
      (cylLoop ops R T 0 fuel cur scr b e pe k).2.2.2.2.1 =
        (buildLoop ops R T fuel cur scr b e pe).2.2.2.2 := by
  intro fuel
  induction fuel with
  | zero => intro cur scr b e pe k; exact ⟨rfl, rfl, rfl, rfl⟩
  | succ fuel ih =>
    intro cur scr b e pe k
    by_cases hsize : e - b ≤ 1
    · simp only [cylLoop, buildLoop, if_pos hsize]
      exact ⟨trivial, trivial, trivial, trivial⟩
    · simp only [cylLoop, buildLoop, if_neg hsize,
        if_neg (Nat.succ_ne_zero k)]
      exact ih _ _ _ _ _ _

/-- A one-node (or empty) window makes the round loop a no-op. -/
theorem buildLoop_done {V : Type} (ops : VolOps V) (R T : ℕ) (fuel : ℕ)
    (cur scr : ℕ → BvhNode V) (b e pe : ℕ) (h : e - b ≤ 1) :
    buildLoop ops R T fuel cur scr b e pe = (cur, scr, b, e, pe) := by
  cases fuel with
  | zero => rfl
  | succ fuel => simp only [buildLoop, if_pos h]

/-!
## `Bvh::sibling` and `Bvh::is_left_sibling` (bvh.hpp, lines 128–138)
-/

/-- `sibling(index) = index % 2 == 1 ? index + 1 : index - 1`. -/
def sibling (index : ℕ) : ℕ :=
  if index % 2 = 1 then index + 1 else index - 1

/-- `is_left_sibling(index) = index % 2 == 1`. -/
def is_left_sibling (index : ℕ) : Bool := index % 2 == 1

/-!
## Concrete instances used by witnesses and counterexamples
-/

/-- The unit box over `[x, x+1] × [0,1] × [0,1]`. -/
def box1 (x : ℤ) : BBox := ⟨x, 0, 0, x + 1, 1, 1⟩

/-- Four primitives at `x = 0, 4, 5, 6`. -/
def fourPrims : ℕ → BBox := fun i =>
  if i = 0 then box1 0 else if i = 1 then box1 4 else if i = 2 then box1 5
  else box1 6

/-- The seeded arena of the `P = 4` box build (initial window `[3, 7)`). -/
def fourInput : ℕ → BvhNode BBox := seedNodes zeroBox fourPrims (fun i => i) 4

/-- The neighbors of the first `P = 4` round (`R = 10`, one worker). -/
def fourNbr : ℕ → ℕ := nbrPar boxOps fourInput 10 1 3 7

/-- The output buffer of the first `P = 4` round. -/
def fourOut : ℕ → BvhNode BBox :=
  clusterOut boxOps fourNbr fourInput (fun _ => zeroNode BBox zeroBox) 3 7 7

/-- Two primitives at `x = 0` and `x = 10`. -/
def twoPrims : ℕ → BBox := fun i => if i = 0 then box1 0 else box1 10

/-- The first `P = 4` round satisfies the round hypotheses. -/
theorem fourNbr_roundHyp : RoundHyp fourNbr 3 7 := by
  refine ⟨?_, by decide, by decide⟩
  intro i h1 h2
  interval_cases i <;> exact ⟨by decide, by decide, by decide⟩

/-!
## The claims
-/

/-- C1: for every primitive count `P ≥ 1`, a completed non-hybrid build
(box-only or cylinder-only overload, i.e. either operation set) sets the
tree's `node_count` to exactly `2P - 1`, and the round loop terminates with
the final one-node active window `[0, 1)`, so the root node is stored at
index 0 of the node array. -/
theorem C1_node_count_and_root {V : Type} (ops : VolOps V) (z : V)
    (R T : ℕ) (prims : ℕ → V) (perm : ℕ → ℕ) (P : ℕ)
    (hP : 1 ≤ P) (hR : 1 ≤ R) (hT : 1 ≤ T)
    (hcomm : ∀ va vb : V,
      ops.half_area (ops.extend va vb) = ops.half_area (ops.extend vb va)) :
    (buildT ops z R T prims perm P).node_count = 2 * P - 1 ∧
    (buildT ops z R T prims perm P).final_begin = 0 ∧
    (buildT ops z R T prims perm P).final_end = 1 := by
  obtain ⟨h1, h2, h3, -, -, -⟩ :=
    buildT_spec ops z R T prims perm P hP hR hT hcomm
  exact ⟨h1, h2, h3⟩

/-- C1 witness: the box build on two primitives. -/
theorem C1_witness :
    (buildT boxOps zeroBox 10 1 twoPrims (fun i => i) 2).node_count
      = 2 * 2 - 1 ∧
    (buildT boxOps zeroBox 10 1 twoPrims (fun i => i) 2).final_begin = 0 ∧
    (buildT boxOps zeroBox 10 1 twoPrims (fun i => i) 2).final_end = 1 :=
  C1_node_count_and_root boxOps zeroBox 10 1 twoPrims (fun i => i) 2
    (by decide) (by decide) (by decide) boxOps_comm

/-- C7: for every node `i` in the active window, the neighbor computed
through the sliding distance-matrix cache by a worker thread equals the
neighbor the cache-free reference computes by directly evaluating
`half_area(union(volume(i), volume(j)))` for every `j` in
`[max(begin, i - R), min(end, i + R + 1))` other than `i` and keeping the
first strict minimum in backward-then-forward scan order. -/
theorem C7_cache_equals_reference {V : Type} (ops : VolOps V)
    (input : ℕ → BvhNode V) (R T b e : ℕ)
    (hR : 1 ≤ R) (hT : 1 ≤ T) (hwin : b + 2 ≤ e)
    (hsym : ∀ i j, mergeCost ops input i j = mergeCost ops input j i)
    (i : ℕ) (h1 : b ≤ i) (h2 : i < e) :
    nbrPar ops input R T b e i = nbrRef ops input R b e i :=
  nbrPar_eq_nbrRef ops input R T b e hR hT hwin hsym i h1 h2

/-- C7 witness: node 5 of the first `P = 4` round (its backward candidate 4
and forward candidate 6 tie at cost 5; the backward one is kept). -/
theorem C7_witness :
    nbrPar boxOps fourInput 10 1 3 7 5 = nbrRef boxOps fourInput 10 3 7 5 :=
  C7_cache_equals_reference boxOps fourInput 10 1 3 7 (by decide) (by decide)
    (by decide) (fun i j => boxOps_comm _ _) 5 (by decide) (by decide)

/-- C8: for fixed input primitives in fixed order, fixed search radius and
fixed global bound, two runs of the same non-hybrid build overload produce
identical trees regardless of the worker-thread count; indeed the whole
round loop — hence every per-round result — depends only on the window, the
radius and the node contents, not on the chunk partition. -/
theorem C8_thread_determinism {V : Type} (ops : VolOps V) (z : V)
    (R T T2 : ℕ) (prims : ℕ → V) (perm : ℕ → ℕ) (P : ℕ)
    (hR : 1 ≤ R) (hT : 1 ≤ T) (hT2 : 1 ≤ T2)
    (hcomm : ∀ va vb : V,
      ops.half_area (ops.extend va vb) = ops.half_area (ops.extend vb va)) :
    buildT ops z R T prims perm P = buildT ops z R T2 prims perm P ∧
    ∀ (fuel : ℕ) (cur scr : ℕ → BvhNode V) (b e pe : ℕ),
      buildLoop ops R T fuel cur scr b e pe =
        buildLoop ops R T2 fuel cur scr b e pe :=
  ⟨buildT_threads ops z R T T2 prims perm P hR hT hT2 hcomm,
   buildLoop_threads ops R T T2 hR hT hT2 hcomm⟩

/-- C8 witness: the two-primitive box build with 1 and with 3 workers. -/
theorem C8_witness :
    buildT boxOps zeroBox 10 1 twoPrims (fun i => i) 2 =
      buildT boxOps zeroBox 10 3 twoPrims (fun i => i) 2 :=
  (C8_thread_determinism boxOps zeroBox 10 1 3 twoPrims (fun i => i) 2
    (by decide) (by decide) (by decide) boxOps_comm).1

/-- C2: in every tree a non-hybrid build produces (either operation set),
each internal node's stored bounding volume is exactly the union (`extend`)
of the volumes of its two children at `first_child` and `first_child + 1`;
and in each clustering round — the routine every overload shares — the
freshly written parent stores exactly the union of the two child records
placed at its `first_child` and `first_child + 1`. -/
theorem C2_internal_volume_exact {V : Type} (ops : VolOps V) (z : V)
    (R T : ℕ) (prims : ℕ → V) (perm : ℕ → ℕ) (P : ℕ)
    (hP : 1 ≤ P) (hR : 1 ≤ R) (hT : 1 ≤ T)
    (hext : ∀ va vb : V, ops.extend va vb = ops.extend vb va) :
    (∀ x, x < 2 * P - 1 →
      ((buildT ops z R T prims perm P).nodes x).is_leaf = false →
      ((buildT ops z R T prims perm P).nodes x).volume =
        ops.extend
          (((buildT ops z R T prims perm P).nodes
            (((buildT ops z R T prims perm P).nodes
              x).first_child_or_primitive)).volume)
          (((buildT ops z R T prims perm P).nodes
            (((buildT ops z R T prims perm P).nodes
              x).first_child_or_primitive + 1)).volume)) ∧
    (∀ (nbr : ℕ → ℕ) (input out0 : ℕ → BvhNode V) (b e pe : ℕ),
      RoundHyp nbr b e → e ≤ pe →
      ∀ i, b ≤ i → i < e → nbr (nbr i) = i → i < nbr i →
        (clusterOut ops nbr input out0 b e pe
            (destSurv nbr b (unmergedBeginOf nbr b e) (nbr i))).volume =
          ops.extend
            ((clusterOut ops nbr input out0 b e pe
              (destChild nbr b (childrenBeginOf nbr b e) i)).volume)
            ((clusterOut ops nbr input out0 b e pe
              (destChild nbr b (childrenBeginOf nbr b e) i + 1)).volume)) := by
  have hcomm : ∀ va vb : V,
      ops.half_area (ops.extend va vb) = ops.half_area (ops.extend vb va) := by
    intro va vb
    rw [hext]
  constructor
  · obtain ⟨-, -, -, hstruct, -, -⟩ :=
      buildT_spec ops z R T prims perm P hP hR hT hcomm
    intro x hx hleaf
    obtain ⟨-, hint⟩ := hstruct x (Nat.zero_le x) hx
    obtain ⟨-, -, -, -, hvol⟩ := hint hleaf
    rw [hvol, hext]
  · intro nbr input out0 b e pe hyp hpe i h1 h2 hmut hij
    have hpar := clusterOut_parent ops nbr input out0 b e pe hyp hpe
      i h1 h2 hmut hij
    obtain ⟨hc1, hc2⟩ := clusterOut_children ops nbr input out0 b e pe hyp hpe
      i h1 h2 hmut hij
    rw [hpar, hc1, hc2]
    exact hext (input (nbr i)).volume (input i).volume

/-- C2 witness: the parent of the pair `(4, 5)` in the first `P = 4`
round stores exactly the union of its two children. -/
theorem C2_witness :
    (fourOut (destSurv fourNbr 3 (unmergedBeginOf fourNbr 3 7)
        (fourNbr 4))).volume =
      boxOps.extend
        ((fourOut (destChild fourNbr 3 (childrenBeginOf fourNbr 3 7)
          4)).volume)
        ((fourOut (destChild fourNbr 3 (childrenBeginOf fourNbr 3 7)
          4 + 1)).volume) :=
  (C2_internal_volume_exact boxOps zeroBox 10 1 twoPrims (fun i => i) 2
      (by decide) (by decide) (by decide)
      (fun va vb => BBox.extend_comm va vb)).2
    fourNbr fourInput (fun _ => zeroNode BBox zeroBox) 3 7 7
    fourNbr_roundHyp (by decide) 4 (by decide) (by decide) (by decide)
    (by decide)

/-- C3: in every clustering round over window `[b, e)` whose neighbor map
satisfies the round hypotheses: a node's merge flag is 1 exactly when it is
the lower-indexed member of a mutual nearest-neighbor pair, the higher
member's flag is 0, the merged count equals the number of mutual pairs, a
node without a mutual match is copied through unchanged to its survivor
slot, and a mutual pair is merged into a freshly created internal parent
holding the union of the two. -/
theorem C3_mutual_merge_rule {V : Type} (ops : VolOps V) (nbr : ℕ → ℕ)
    (input out0 : ℕ → BvhNode V) (b e pe : ℕ)
    (hyp : RoundHyp nbr b e) (hpe : e ≤ pe) :
    (∀ i, mergedFlag nbr i = 1 ↔ (i < nbr i ∧ nbr (nbr i) = i)) ∧
    (∀ i, nbr (nbr i) = i → i < nbr i → mergedFlag nbr (nbr i) = 0) ∧
    mergedCountOf nbr b e =
      ((List.range' b (e - b)).filter
        (fun i => i < nbr i ∧ nbr (nbr i) = i)).length ∧
    (∀ i, b ≤ i → i < e → nbr (nbr i) ≠ i →
      clusterOut ops nbr input out0 b e pe
        (destSurv nbr b (unmergedBeginOf nbr b e) i) = input i) ∧
    (∀ i, b ≤ i → i < e → nbr (nbr i) = i → i < nbr i →
      (clusterOut ops nbr input out0 b e pe
        (destSurv nbr b (unmergedBeginOf nbr b e) (nbr i))).is_leaf
          = false ∧
      (clusterOut ops nbr input out0 b e pe
        (destSurv nbr b (unmergedBeginOf nbr b e) (nbr i))).volume =
        ops.extend (input (nbr i)).volume (input i).volume) := by
  refine ⟨mergedFlag_eq_one_iff nbr, ?_, ?_, ?_, ?_⟩
  · intro i hmut hij
    exact partner_flag_zero nbr i hmut hij
  · rw [mergedCountOf_eq_cnt nbr b e hyp.2.2, cntFlag_eq_length]
    congr 1
    apply List.filter_congr
    intro i h
    exact decide_eq_decide.mpr (mergedFlag_eq_one_iff nbr i)
  · intro i h1 h2 hsurv
    exact clusterOut_surv ops nbr input out0 b e pe hyp hpe i h1 h2 hsurv
  · intro i h1 h2 hmut hij
    rw [clusterOut_parent ops nbr input out0 b e pe hyp hpe i h1 h2 hmut hij]
    exact ⟨rfl, rfl⟩

/-- C3 witness: the first `P = 4` round has exactly one mutual pair and
copies the unmatched node 3 through to its survivor slot. -/
theorem C3_witness :
    mergedCountOf fourNbr 3 7 =
      ((List.range' 3 (7 - 3)).filter
        (fun i => i < fourNbr i ∧ fourNbr (fourNbr i) = i)).length ∧
    fourOut (destSurv fourNbr 3 (unmergedBeginOf fourNbr 3 7) 3) =
      fourInput 3 :=
  ⟨(C3_mutual_merge_rule boxOps fourNbr fourInput
      (fun _ => zeroNode BBox zeroBox) 3 7 7 fourNbr_roundHyp
      (by decide)).2.2.1,
   (C3_mutual_merge_rule boxOps fourNbr fourInput
      (fun _ => zeroNode BBox zeroBox) 3 7 7 fourNbr_roundHyp
      (by decide)).2.2.2.1 3 (by decide) (by decide) (by decide)⟩

/-- C4 counterexample: in the first round of the `P = 4` build on boxes at
`x = 0, 4, 5, 6` (window `[3, 7)`, exactly one mutual pair `(4, 5)`), the
code's `unmerged_count` is `(end - begin) - merged_count = 3`, not the
claimed `(end - begin) - 2 * merged_count = 2`; and the claimed parent
slots `children_begin + pair_rank ∈ {5, 6}` both hold copied child leaves,
while the round's only freshly created internal parent sits at slot 3. -/
theorem C4_counterexample :
    mergedCountOf fourNbr 3 7 = 1 ∧
    unmergedCountOf fourNbr 3 7 = 3 ∧
    ¬ unmergedCountOf fourNbr 3 7 =
        (7 - 3) - 2 * mergedCountOf fourNbr 3 7 ∧
    childrenBeginOf fourNbr 3 7 = 5 ∧
    (fourOut 5).is_leaf = true ∧ (fourOut 6).is_leaf = true ∧
    (fourOut 3).is_leaf = false := by decide

/-- C4 (amended): for every round over `[b, e)` merging `m` pairs, the code
computes `unmerged_count = (e - b) - m` (survivors and new parents
together), `children_count = 2m`, `children_begin = e - 2m` and
`unmerged_begin = b - m`; a survivor `i` is written to
`unmerged_begin + i - b - merged_index[i]`; the parent of a mutual pair
`i < j` is written to `unmerged_begin + j - b - merged_index[j]` with
`is_leaf = false`, volume the union of the pair, and `first_child` set to
`children_begin + (merged_index[i] - 1) * 2`, where the two original
children are copied unchanged (the remaining parent fields keep the output
buffer's previous contents). -/
theorem C4_amended_placement {V : Type} (ops : VolOps V) (nbr : ℕ → ℕ)
    (input out0 : ℕ → BvhNode V) (b e pe : ℕ)
    (hyp : RoundHyp nbr b e) (hpe : e ≤ pe) :
    unmergedCountOf nbr b e = (e - b) - mergedCountOf nbr b e ∧
    childrenCountOf nbr b e = 2 * mergedCountOf nbr b e ∧
    childrenBeginOf nbr b e = e - 2 * mergedCountOf nbr b e ∧
    unmergedBeginOf nbr b e = b - mergedCountOf nbr b e ∧
    (∀ i, b ≤ i → i < e → nbr (nbr i) ≠ i →
      clusterOut ops nbr input out0 b e pe
        (unmergedBeginOf nbr b e + i - b - psum nbr b i) = input i) ∧
    (∀ i, b ≤ i → i < e → nbr (nbr i) = i → i < nbr i →
      clusterOut ops nbr input out0 b e pe
          (unmergedBeginOf nbr b e + nbr i - b - psum nbr b (nbr i)) =
        { out0 (unmergedBeginOf nbr b e + nbr i - b - psum nbr b (nbr i))
            with
            volume := ops.extend (input (nbr i)).volume (input i).volume,
            is_leaf := false,
            first_child_or_primitive :=
              childrenBeginOf nbr b e + (psum nbr b i - 1) * 2 } ∧
      clusterOut ops nbr input out0 b e pe
          (childrenBeginOf nbr b e + (psum nbr b i - 1) * 2) = input i ∧
      clusterOut ops nbr input out0 b e pe
          (childrenBeginOf nbr b e + (psum nbr b i - 1) * 2 + 1) =
        input (nbr i)) := by
  refine ⟨rfl, ?_, ?_, unmergedBeginOf_eq nbr b e hyp.2.1 hyp.2.2, ?_, ?_⟩
  · show mergedCountOf nbr b e * 2 = 2 * mergedCountOf nbr b e
    omega
  · show e - childrenCountOf nbr b e = e - 2 * mergedCountOf nbr b e
    unfold childrenCountOf
    omega
  · intro i h1 h2 hsurv
    exact clusterOut_surv ops nbr input out0 b e pe hyp hpe i h1 h2 hsurv
  · intro i h1 h2 hmut hij
    refine ⟨?_, (clusterOut_children ops nbr input out0 b e pe hyp hpe
      i h1 h2 hmut hij).1,
      (clusterOut_children ops nbr input out0 b e pe hyp hpe
      i h1 h2 hmut hij).2⟩
    exact clusterOut_parent ops nbr input out0 b e pe hyp hpe i h1 h2
      hmut hij

/-- C4 witness: the first `P = 4` round, with survivor 6 written to its
computed slot and the window formulas instantiated. -/
theorem C4_witness :
    unmergedBeginOf fourNbr 3 7 = 3 - mergedCountOf fourNbr 3 7 ∧
    fourOut (unmergedBeginOf fourNbr 3 7 + 6 - 3 - psum fourNbr 3 6) =
      fourInput 6 :=
  ⟨(C4_amended_placement boxOps fourNbr fourInput
      (fun _ => zeroNode BBox zeroBox) 3 7 7 fourNbr_roundHyp
      (by decide)).2.2.2.1,
   (C4_amended_placement boxOps fourNbr fourInput
      (fun _ => zeroNode BBox zeroBox) 3 7 7 fourNbr_roundHyp
      (by decide)).2.2.2.2.1 6 (by decide) (by decide) (by decide)⟩

/-- C5 counterexample: on two primitives (cylinder type modelled by its
box, AABB conversion the identity) with `iteration = 0`, the hybrid
overload's box root is a leaf — the hand-off marks the whole final window
`[0, 1)` as leaves — while the box-only build on the AABB conversions of
the same input makes the root an internal node; the two trees differ. -/
theorem C5_counterexample :
    ((hybridBuildT boxOps zeroBox id 10 1 twoPrims (fun i => i) 2 0).nodes
        0).is_leaf = true ∧
    ((buildT boxOps zeroBox 10 1 (fun i => id (twoPrims i)) (fun i => i)
        2).nodes 0).is_leaf = false := by decide

/-- C5 (amended): with `iteration = 0` the break test `k == iteration` can
never fire (it is evaluated only after `k++`), so the hybrid build's
cylinder loop runs to full convergence, exactly like the non-hybrid build
on the cylinder operation set; the hand-off then happens at the final
one-node window `[0, 1)` (marking the finished root a leaf of the box
tree), and the subsequent box phase is a no-op: the resulting box arena is
the hand-off conversion of the finished cylinder tree, not the box-only
build on the AABB conversions of the input. -/
theorem C5_amended_iteration_zero {CV : Type} (cops : VolOps CV) (zc : CV)
    (toAABB : CV → BBox) (R T : ℕ) (prims : ℕ → CV) (perm : ℕ → ℕ) (P : ℕ)
    (hP : 1 ≤ P) (hR : 1 ≤ R) (hT : 1 ≤ T)
    (hcomm : ∀ va vb : CV,
      cops.half_area (cops.extend va vb)
        = cops.half_area (cops.extend vb va)) :
    (hybridBuildT cops zc toAABB R T prims perm P 0).cnodes =
      (buildT cops zc R T prims perm P).nodes ∧
    (hybridBuildT cops zc toAABB R T prims perm P 0).handoff_begin = 0 ∧
    (hybridBuildT cops zc toAABB R T prims perm P 0).handoff_end = 1 ∧
    (hybridBuildT cops zc toAABB R T prims perm P 0).nodes =
      handOff toAABB P 0 1 (buildT cops zc R T prims perm P).nodes := by
  obtain ⟨hiter1, hiter2, hiter3, hiter4⟩ := cylLoop_iter_zero cops R T P
    (seedNodes zc prims perm P) (fun _ => zeroNode CV zc)
    (2 * P - 1 - P) (2 * P - 1) (2 * P - 1) 0
  obtain ⟨-, hb0, he1, -, -, -⟩ :=
    buildT_spec cops zc R T prims perm P hP hR hT hcomm
  have hb0' : (buildLoop cops R T P (seedNodes zc prims perm P)
      (fun _ => zeroNode CV zc) (2 * P - 1 - P) (2 * P - 1)
      (2 * P - 1)).2.2.1 = 0 := hb0
  have he1' : (buildLoop cops R T P (seedNodes zc prims perm P)
      (fun _ => zeroNode CV zc) (2 * P - 1 - P) (2 * P - 1)
      (2 * P - 1)).2.2.2.1 = 1 := he1
  have hcyl_b : (cylLoop cops R T 0 P (seedNodes zc prims perm P)
      (fun _ => zeroNode CV zc) (2 * P - 1 - P) (2 * P - 1)
      (2 * P - 1) 0).2.2.1 = 0 := by rw [hiter2, hb0']
  have hcyl_e : (cylLoop cops R T 0 P (seedNodes zc prims perm P)
      (fun _ => zeroNode CV zc) (2 * P - 1 - P) (2 * P - 1)
      (2 * P - 1) 0).2.2.2.1 = 1 := by rw [hiter3, he1']
  have hnodes : (hybridBuildT cops zc toAABB R T prims perm P 0).cnodes =
      (buildT cops zc R T prims perm P).nodes := by
    simp only [hybridBuildT, buildT]
    exact hiter1
  refine ⟨hnodes, ?_, ?_, ?_⟩
  · show (cylLoop cops R T 0 P (seedNodes zc prims perm P)
      (fun _ => zeroNode CV zc) (2 * P - 1 - P) (2 * P - 1)
      (2 * P - 1) 0).2.2.1 = 0
    exact hcyl_b
  · show (cylLoop cops R T 0 P (seedNodes zc prims perm P)
      (fun _ => zeroNode CV zc) (2 * P - 1 - P) (2 * P - 1)
      (2 * P - 1) 0).2.2.2.1 = 1
    exact hcyl_e
  · show (buildLoop boxOps R T P
      (handOff toAABB P
        (cylLoop cops R T 0 P (seedNodes zc prims perm P)
          (fun _ => zeroNode CV zc) (2 * P - 1 - P) (2 * P - 1)
          (2 * P - 1) 0).2.2.1
        (cylLoop cops R T 0 P (seedNodes zc prims perm P)
          (fun _ => zeroNode CV zc) (2 * P - 1 - P) (2 * P - 1)
          (2 * P - 1) 0).2.2.2.1
        (cylLoop cops R T 0 P (seedNodes zc prims perm P)
          (fun _ => zeroNode CV zc) (2 * P - 1 - P) (2 * P - 1)
          (2 * P - 1) 0).1)
      (fun _ => zeroNode BBox zeroBox)
      (cylLoop cops R T 0 P (seedNodes zc prims perm P)
        (fun _ => zeroNode CV zc) (2 * P - 1 - P) (2 * P - 1)
        (2 * P - 1) 0).2.2.1
      (cylLoop cops R T 0 P (seedNodes zc prims perm P)
        (fun _ => zeroNode CV zc) (2 * P - 1 - P) (2 * P - 1)
        (2 * P - 1) 0).2.2.2.1
      (cylLoop cops R T 0 P (seedNodes zc prims perm P)
        (fun _ => zeroNode CV zc) (2 * P - 1 - P) (2 * P - 1)
        (2 * P - 1) 0).2.2.2.2.1).1 =
      handOff toAABB P 0 1 (buildT cops zc R T prims perm P).nodes
    rw [hcyl_b, hcyl_e]
    rw [buildLoop_done boxOps R T P _ _ 0 1 _ (by omega)]
    have hn : (cylLoop cops R T 0 P (seedNodes zc prims perm P)
        (fun _ => zeroNode CV zc) (2 * P - 1 - P) (2 * P - 1)
        (2 * P - 1) 0).1 = (buildT cops zc R T prims perm P).nodes := by
      simp only [buildT]
      exact hiter1
    rw [hn]

/-- C5 witness: the two-primitive hybrid build with `iteration = 0`. -/
theorem C5_witness :
    (hybridBuildT boxOps zeroBox id 10 1 twoPrims (fun i => i) 2 0
        ).handoff_begin = 0 ∧
    (hybridBuildT boxOps zeroBox id 10 1 twoPrims (fun i => i) 2 0).nodes =
      handOff id 2 0 1
        (buildT boxOps zeroBox 10 1 twoPrims (fun i => i) 2).nodes :=
  ⟨(C5_amended_iteration_zero boxOps zeroBox id 10 1 twoPrims (fun i => i)
      2 (by decide) (by decide) (by decide) boxOps_comm).2.1,
   (C5_amended_iteration_zero boxOps zeroBox id 10 1 twoPrims (fun i => i)
      2 (by decide) (by decide) (by decide) boxOps_comm).2.2.2⟩

/-- C6 (code bug): on four primitives (cylinder type modelled by
its box, AABB conversion the identity) with `iteration = 1`, the hand-off
window is `[2, 5)`; cylinder node 4 is a live leaf (`primitive_count = 1`)
inside that window of the `2P - 1 = 7`-slot shadow arena, yet the
conversion loop only covers `i < primitive_count = 4`, so shadow slot 4
stays value-initialized — it receives neither the box conversion of
cylinder node 4 nor the required leaf marking, and the box rounds then
cluster a zero node. -/
theorem C6_conversion_misses_arena_slots :
    (hybridBuildT boxOps zeroBox id 10 1 fourPrims (fun i => i) 4 1
        ).node_count = 7 ∧
    (hybridBuildT boxOps zeroBox id 10 1 fourPrims (fun i => i) 4 1
        ).handoff_begin = 2 ∧
    (hybridBuildT boxOps zeroBox id 10 1 fourPrims (fun i => i) 4 1
        ).handoff_end = 5 ∧
    ((hybridBuildT boxOps zeroBox id 10 1 fourPrims (fun i => i) 4 1
        ).cnodes 4).is_leaf = true ∧
    ((hybridBuildT boxOps zeroBox id 10 1 fourPrims (fun i => i) 4 1
        ).cnodes 4).primitive_count = 1 ∧
    handOff id 4 2 5
      ((hybridBuildT boxOps zeroBox id 10 1 fourPrims (fun i => i) 4 1
        ).cnodes) 4 = zeroNode BBox zeroBox := by decide

/-- C9: every build seeds exactly `P` leaves before the first round, leaf
`i` stored at arena index `node_count - P + i` with the bounding volume of
sorted primitive `primitive_indices[i]`, `primitive_count = 1` and
`first_child_or_primitive = i`; the finished tree keeps exactly one leaf
covering each sorted rank `v < P`, and — the sorted order being an
injective permutation — through the primitive-index permutation every
original primitive is covered by exactly one leaf. -/
theorem C9_leaf_seeding_and_coverage {V : Type} (ops : VolOps V) (z : V)
    (R T : ℕ) (prims : ℕ → V) (perm : ℕ → ℕ) (P : ℕ)
    (hP : 1 ≤ P) (hR : 1 ≤ R) (hT : 1 ≤ T)
    (hcomm : ∀ va vb : V,
      ops.half_area (ops.extend va vb) = ops.half_area (ops.extend vb va))
    (hperm : Function.Injective perm) :
    (∀ i, i < P → seedNodes z prims perm P (2 * P - 1 - P + i) =
      ⟨prims (perm i), true, 1, i, 0⟩) ∧
    (buildT ops z R T prims perm P).primitive_indices = perm ∧
    (∀ v, v < P →
      (leafSlots (buildT ops z R T prims perm P).nodes 0 (2 * P - 1)
        v).card = 1) ∧
    (∀ v, v < P →
      ((Finset.Ico 0 (2 * P - 1)).filter
        (fun x =>
          ((buildT ops z R T prims perm P).nodes x).is_leaf = true ∧
          perm (((buildT ops z R T prims perm P).nodes
            x).first_child_or_primitive) = perm v)).card = 1) := by
  obtain ⟨-, -, -, -, hleaf, hperm_eq⟩ :=
    buildT_spec ops z R T prims perm P hP hR hT hcomm
  refine ⟨?_, hperm_eq, hleaf, ?_⟩
  · intro i hi
    unfold seedNodes
    rw [if_pos ⟨Nat.le_add_right _ _, by omega⟩]
    have harg : 2 * P - 1 - P + i - (2 * P - 1 - P) = i := by omega
    rw [harg]
    rfl
  · intro v hv
    have hset : (Finset.Ico 0 (2 * P - 1)).filter
        (fun x =>
          ((buildT ops z R T prims perm P).nodes x).is_leaf = true ∧
          perm (((buildT ops z R T prims perm P).nodes
            x).first_child_or_primitive) = perm v) =
        leafSlots (buildT ops z R T prims perm P).nodes 0 (2 * P - 1) v := by
      unfold leafSlots
      apply Finset.filter_congr
      intro x hx
      constructor
      · rintro ⟨hl, hp⟩
        exact ⟨hl, hperm hp⟩
      · rintro ⟨hl, hp⟩
        exact ⟨hl, by rw [hp]⟩
    rw [hset]
    exact hleaf v hv

/-- C9 witness: the two-primitive box build with the identity
permutation. -/
theorem C9_witness :
    seedNodes zeroBox twoPrims (fun i => i) 2 (2 * 2 - 1 - 2 + 1) =
      ⟨twoPrims 1, true, 1, 1, 0⟩ ∧
    (leafSlots (buildT boxOps zeroBox 10 1 twoPrims (fun i => i) 2).nodes
      0 (2 * 2 - 1) 0).card = 1 :=
  ⟨(C9_leaf_seeding_and_coverage boxOps zeroBox 10 1 twoPrims (fun i => i)
      2 (by decide) (by decide) (by decide) boxOps_comm
      (fun a b h => h)).1 1 (by decide),
   (C9_leaf_seeding_and_coverage boxOps zeroBox 10 1 twoPrims (fun i => i)
      2 (by decide) (by decide) (by decide) boxOps_comm
      (fun a b h => h)).2.2.1 0 (by decide)⟩

/-- C10: in every tree a non-hybrid build produces, the `first_child` of
every internal node is odd, so `Bvh::sibling` maps each first child to its
actual sibling `first_child + 1` and the second child back to the first,
`is_left_sibling` holds exactly for first children, and `sibling` is an
involution on all nonzero indices. -/
theorem C10_sibling_correct {V : Type} (ops : VolOps V) (z : V)
    (R T : ℕ) (prims : ℕ → V) (perm : ℕ → ℕ) (P : ℕ)
    (hP : 1 ≤ P) (hR : 1 ≤ R) (hT : 1 ≤ T)
    (hcomm : ∀ va vb : V,
      ops.half_area (ops.extend va vb) = ops.half_area (ops.extend vb va)) :
    (∀ x, x < 2 * P - 1 →
      ((buildT ops z R T prims perm P).nodes x).is_leaf = false →
      ((buildT ops z R T prims perm P).nodes
          x).first_child_or_primitive % 2 = 1 ∧
      sibling (((buildT ops z R T prims perm P).nodes
          x).first_child_or_primitive) =
        ((buildT ops z R T prims perm P).nodes
          x).first_child_or_primitive + 1 ∧
      sibling (((buildT ops z R T prims perm P).nodes
          x).first_child_or_primitive + 1) =
        ((buildT ops z R T prims perm P).nodes
          x).first_child_or_primitive ∧
      is_left_sibling (((buildT ops z R T prims perm P).nodes
          x).first_child_or_primitive) = true ∧
      is_left_sibling (((buildT ops z R T prims perm P).nodes
          x).first_child_or_primitive + 1) = false) ∧
    (∀ n : ℕ, n ≠ 0 → sibling (sibling n) = n) := by
  constructor
  · obtain ⟨-, -, -, hstruct, -, -⟩ :=
      buildT_spec ops z R T prims perm P hP hR hT hcomm
    intro x hx hleaf
    obtain ⟨-, hint⟩ := hstruct x (Nat.zero_le x) hx
    obtain ⟨-, -, -, hodd, -⟩ := hint hleaf
    refine ⟨hodd, ?_, ?_, ?_, ?_⟩
    · unfold sibling
      rw [if_pos hodd]
    · unfold sibling
      rw [if_neg (by omega)]
      omega
    · simp [is_left_sibling, hodd]
    · simp only [is_left_sibling]
      have : (((buildT ops z R T prims perm P).nodes
          x).first_child_or_primitive + 1) % 2 = 0 := by omega
      simp [this]
  · intro n hn
    unfold sibling
    by_cases h : n % 2 = 1
    · rw [if_pos h, if_neg (by omega)]
      omega
    · rw [if_neg h, if_pos (by omega)]
      omega

/-- C10 witness: the involution at index 5 through the two-primitive box
build instance. -/
theorem C10_witness : sibling (sibling 5) = 5 :=
  (C10_sibling_correct boxOps zeroBox 10 1 twoPrims (fun i => i) 2
    (by decide) (by decide) (by decide) boxOps_comm).2 5 (by decide)

/-!
## The hybrid overload's finished box tree at the C6 failing input

A consequence of the hand-off conversion bug: the finished box tree is
root 0 (children 1, 2) with node 2's children at 3, 4, where slot 4 is the
never-converted, value-initialized shadow of a live cylinder leaf — a
reachable internal node of the finished tree.
-/

/-- The finished box arena of the hybrid build on four primitives with
`iteration = 1` (the C6 failing input). -/
def fourHybridNodes : ℕ → BvhNode BBox :=
  (hybridBuildT boxOps zeroBox id 10 1 fourPrims (fun i => i) 4 1).nodes

/-- C2 counterexample: in the hybrid overload's finished box tree at the
C6 failing input, node 4 — reachable as the second child of node 2, itself
the second child of the root — is internal, yet its stored volume (the
value-initialized zero box) is not the union of the volumes at its two
child slots. -/
theorem C2_counterexample :
    (fourHybridNodes 0).is_leaf = false ∧
    (fourHybridNodes 0).first_child_or_primitive = 1 ∧
    (fourHybridNodes 2).is_leaf = false ∧
    (fourHybridNodes 2).first_child_or_primitive = 3 ∧
    (fourHybridNodes 4).is_leaf = false ∧
    ¬ (fourHybridNodes 4).volume =
        boxOps.extend
          (fourHybridNodes
            ((fourHybridNodes 4).first_child_or_primitive)).volume
          (fourHybridNodes
            ((fourHybridNodes 4).first_child_or_primitive + 1)).volume := by
  decide

/-- C9 counterexample: in the hybrid overload's finished box tree at the
C6 failing input, no leaf of the `2P - 1 = 7`-slot arena covers sorted
rank 3 — that primitive is lost — and node 1 is a leaf with
`primitive_count = 0`, so expanding the leaves' primitive ranges does not
cover every original primitive exactly once. -/
theorem C9_counterexample :
    (∀ x, x < 2 * 4 - 1 →
      ¬ ((fourHybridNodes x).is_leaf = true ∧
         (fourHybridNodes x).first_child_or_primitive = 3)) ∧
    (fourHybridNodes 1).is_leaf = true ∧
    (fourHybridNodes 1).primitive_count = 0 := by decide

/-- C10 counterexample: in the hybrid overload's finished box tree at the
C6 failing input, the reachable internal node 4 (second child of node 2,
itself the second child of the root) has the even `first_child` 0,
refuting the odd-first-child invariant for the hybrid overload. -/
theorem C10_counterexample :
    (fourHybridNodes 0).is_leaf = false ∧
    (fourHybridNodes 0).first_child_or_primitive = 1 ∧
    (fourHybridNodes 2).is_leaf = false ∧
    (fourHybridNodes 2).first_child_or_primitive = 3 ∧
    (fourHybridNodes 4).is_leaf = false ∧
    (fourHybridNodes 4).first_child_or_primitive % 2 = 0 := by decide
